import Mathlib

/-!
Verification of the holon core against its specification.

This file gives a shallow embedding, in Lean, of the parts of the holon
repository that the checked claims are about:

* `src/core/holon/services/graph_parser.py` — extraction of a `Graph`
  (nodes + edges) from source text, embedded as functions over a CST-style
  syntax tree (`Expr`, `Stmt`) mirroring the LibCST subset the code uses.
* `src/core/holon/services/patcher.py` — `rename_node`, `patch_spec_node`,
  `add_link` and their helper transformers.
* `src/core/holon/execution/engine.py`, `resolver.py`, `ports.py` — the
  execution order computation, the sequential fail-fast node loop, the
  spec-node resolver cache and the port registry.

Python dictionaries are embedded as association lists with Python's
insert-or-overwrite-in-place semantics; Python `None` for optional strings
becomes `Option String`; exceptions become `Except String`.
-/

/-! ## JSON-ish values (the `props` payload of `spec(...)` declarations) -/

mutual

inductive JValue where
  | jnull : JValue
  | jbool (b : Bool) : JValue
  | jint (n : Int) : JValue
  | jfloat (s : String) : JValue
  | jstr (s : String) : JValue
  | jarr (xs : JArr) : JValue
  | jobj (kvs : JObj) : JValue
deriving DecidableEq, Repr

inductive JArr where
  | nil : JArr
  | cons (v : JValue) (rest : JArr) : JArr
deriving DecidableEq, Repr

inductive JObj where
  | nil : JObj
  | cons (k : String) (v : JValue) (rest : JObj) : JObj
deriving DecidableEq, Repr

end

/-- Python `dict` assignment `out[key] = val`: overwrite in place if the key
exists (keeping its original position), otherwise append at the end. -/
def JObj.setKey : JObj → String → JValue → JObj
  | .nil, k, v => .cons k v .nil
  | .cons k' v' rest, k, v =>
      if k' = k then .cons k' v rest else .cons k' v' (JObj.setKey rest k v)

/-! ## Expressions (the LibCST subset used by the holon services)

`ename` is `cst.Name`, `estr` a `cst.SimpleString` carrying its evaluated
value, `eint` / `efloat` numeric literals (`efloat` keeps the source text),
`eattr` is `cst.Attribute`, `ecall` is `cst.Call` with an argument list of
optional keyword + value, `elist` / `edict` are display literals. -/

mutual

inductive Expr where
  | ename (s : String) : Expr
  | estr (s : String) : Expr
  | eint (n : Int) : Expr
  | efloat (s : String) : Expr
  | eattr (base : Expr) (attr : String) : Expr
  | ecall (f : Expr) (args : EArgs) : Expr
  | elist (es : EList) : Expr
  | edict (es : EDict) : Expr
deriving DecidableEq, Repr

inductive EArgs where
  | nil : EArgs
  | cons (kw : Option String) (v : Expr) (rest : EArgs) : EArgs
deriving DecidableEq, Repr

inductive EList where
  | nil : EList
  | cons (e : Expr) (rest : EList) : EList
deriving DecidableEq, Repr

inductive EDict where
  | nil : EDict
  | cons (k : Expr) (v : Expr) (rest : EDict) : EDict
deriving DecidableEq, Repr

end

/-! ## Statements

`sline` is `cst.SimpleStatementLine` (a list of small statements), `sfunc`
is `cst.FunctionDef` (decorator expressions, name, indented body), `sif` a
compound `cst.If` with both branches.  SmallStmt statements cover expression
statements, single-target assignments, `return`, imports and `pass`. -/

inductive SmallStmt where
  | sexpr (e : Expr) : SmallStmt
  | sassign (target : String) (value : Expr) : SmallStmt
  | sret (e : Option Expr) : SmallStmt
  | simportFrom (mod : Option String) (star : Bool) (names : List String) : SmallStmt
  | simport (mod : String) : SmallStmt
  | spass : SmallStmt
deriving DecidableEq, Repr

mutual

inductive Stmt where
  | sline (body : List SmallStmt) : Stmt
  | sfunc (decorators : List Expr) (name : String) (body : StmtList) : Stmt
  | sif (cond : Expr) (thenB : StmtList) (elseB : StmtList) : Stmt
deriving DecidableEq, Repr

inductive StmtList where
  | nil : StmtList
  | cons (s : Stmt) (rest : StmtList) : StmtList
deriving DecidableEq, Repr

end

/-- A module is its top-level statement list. -/
abbrev PyModule := StmtList

def StmtList.toList : StmtList → List Stmt
  | .nil => []
  | .cons s rest => s :: rest.toList

def StmtList.ofList : List Stmt → StmtList
  | [] => .nil
  | s :: rest => .cons s (StmtList.ofList rest)

def StmtList.append : StmtList → StmtList → StmtList
  | .nil, l => l
  | .cons s rest, l => .cons s (rest.append l)

def StmtList.length : StmtList → Nat
  | .nil => 0
  | .cons _ rest => rest.length + 1

/-! ## Graph model (`src/core/holon/domain/models.py`)

`Position` is always `None` in everything the parser produces, so it is
omitted.  `props` is the ordered JSON-ish mapping. -/

structure GNode where
  id : String
  name : String
  kind : String
  label : Option String := none
  node_type : Option String := none
  props : Option JObj := none
deriving DecidableEq, Repr

structure GEdge where
  source : String
  target : String
  source_port : Option String := none
  target_port : Option String := none
  kind : Option String := none
deriving DecidableEq, Repr

structure Graph where
  nodes : List GNode
  edges : List GEdge
deriving DecidableEq, Repr

/-! ## Extractor (`src/core/holon/services/graph_parser.py`) -/

/-- Embeds `_decorator_matches`: unwrap one call layer, then match a bare name or
the final attribute segment. -/
def decoratorMatches (decorator_name : String) (expr : Expr) : Bool :=
  let target := match expr with
    | .ecall f _ => f
    | e => e
  match target with
  | .ename s => s = decorator_name
  | .eattr _ a => a = decorator_name
  | _ => false

/-- Embeds `_call_matches`: a bare name or the final attribute segment (no call
unwrapping, unlike `_decorator_matches`). -/
def callMatches (expr : Expr) (nm : String) : Bool :=
  match expr with
  | .ename s => s = nm
  | .eattr _ a => a = nm
  | _ => false

/-- Embeds `_is_decorated_as` (patcher) / the per-decorator test of
`_extract_holon_kind` (graph_parser). -/
def isDecoratedAs (decorators : List Expr) (decorator_name : String) : Bool :=
  decorators.any (decoratorMatches decorator_name)

/-- Embeds `_extract_holon_kind`: `@node` wins over `@workflow`; anything else is
ignored. -/
def extractHolonKind (decorators : List Expr) : Option String :=
  if isDecoratedAs decorators "node" then some "node"
  else if isDecoratedAs decorators "workflow" then some "workflow"
  else none

/-- Embeds `_string_expr_value`: only a `SimpleString` yields a value. -/
def stringExprValue : Expr → Option String
  | .estr s => some s
  | _ => none

/-- Embeds `_string_arg_value` reads `arg.value` whether or not the argument is a
keyword argument. -/
def stringArgValue (kw : Option String) (v : Expr) : Option String :=
  let _ := kw
  stringExprValue v

mutual

/-- Embeds `_jsonish_value`: literal translation of an expression to a JSON-ish
value, `none` standing for the `_NOT_JSONISH` sentinel. -/
def jsonishValue : Expr → Option JValue
  | .estr s => some (.jstr s)
  | .eint n => some (.jint n)
  | .efloat s => some (.jfloat s)
  | .ename s =>
      if s = "True" then some (.jbool true)
      else if s = "False" then some (.jbool false)
      else if s = "None" then some .jnull
      else none
  | .elist es => (jsonishElems es).map .jarr
  | .edict es => (jsonishDictElems es JObj.nil).map .jobj
  | _ => none

def jsonishElems : EList → Option JArr
  | .nil => some .nil
  | .cons e rest =>
      match jsonishValue e with
      | none => none
      | some v =>
          match jsonishElems rest with
          | none => none
          | some vs => some (.cons v vs)

/-- The element loop of `_jsonish_dict_literal`: every key must be a string
literal and every value JSON-ish, else the whole dict is rejected; `out` is
built with Python dict insert-or-overwrite. -/
def jsonishDictElems : EDict → JObj → Option JObj
  | .nil, out => some out
  | .cons kx vx rest, out =>
      match stringExprValue kx with
      | none => none
      | some k =>
          match jsonishValue vx with
          | none => none
          | some v => jsonishDictElems rest (out.setKey k v)

end

/-- Embeds `_jsonish_dict_literal`: `None` and non-dict expressions give Python
`None`, as does any non-JSON-ish content. -/
def jsonishDictLiteral : Expr → Option JObj
  | .ename s => if s = "None" then none else none
  | .edict es => jsonishDictElems es JObj.nil
  | _ => none

/-- The keyword-scanning loop of `_parse_spec_call` over `call.args[1:]`:
every matching keyword reassigns (later occurrences win). -/
def specCallFields : EArgs → Option String × Option String × Option JObj →
    Option String × Option String × Option JObj
  | .nil, acc => acc
  | .cons kw v rest, (t, l, p) =>
      match kw with
      | none => specCallFields rest (t, l, p)
      | some k =>
          let t' := if k = "type" then stringExprValue v else t
          let l' := if k = "label" then stringExprValue v else l
          let p' := if k = "props" then jsonishDictLiteral v else p
          specCallFields rest (t', l', p')

/-- Embeds `_parse_spec_call`: requires a string-literal first argument and a
string-literal `type=`; a missing or non-literal `props` leaves the node's
props at `None`. `name` is `label or node_id` (Python truthiness). -/
def parseSpecCall (args : EArgs) : Option GNode :=
  match args with
  | .nil => none
  | .cons kw0 v0 rest =>
      match stringArgValue kw0 v0 with
      | none => none
      | some node_id =>
          match specCallFields rest (none, none, none) with
          | (type_value, label_value, props_value) =>
              match type_value with
              | none => none
              | some ty =>
                  some { id := node_id
                         name := match label_value with
                                 | some l => if l = "" then node_id else l
                                 | none => node_id
                         kind := "spec"
                         label := label_value
                         node_type := some ty
                         props := props_value }

/-- Embeds `_extract_call_from_simple_stmt`: a one-statement line that is a bare
call expression or a single assignment whose value is a call. -/
def callFromSimpleStmt (body : List SmallStmt) : Option Expr :=
  match body with
  | [.sexpr (.ecall f args)] => some (.ecall f args)
  | [.sassign _ (.ecall f args)] => some (.ecall f args)
  | _ => none

/-- Embeds the per-statement step of `_SpecNodeCollector.visit_Module`:
the nodes (zero or one) a single top-level statement contributes. -/
def specNodesOfStmt : Stmt → List GNode
  | .sline body =>
      match callFromSimpleStmt body with
      | some (.ecall f args) =>
          if callMatches f "spec" then
            match parseSpecCall args with
            | some nd => [nd]
            | none => []
          else []
      | _ => []
  | _ => []

/-- Embeds `_SpecNodeCollector.visit_Module`: scan only top-level statements for
`spec(...)` calls. -/
def collectSpecNodes : StmtList → List GNode
  | .nil => []
  | .cons st rest => specNodesOfStmt st ++ collectSpecNodes rest

mutual

/-- Embeds `_HolonFunctionCollector`: visit every `FunctionDef` at any depth, in
document (pre-order) order, emitting a node for `@node` / `@workflow`. -/
def collectFuncNodesS : Stmt → List GNode
  | .sline _ => []
  | .sfunc decorators nm body =>
      let here :=
        match extractHolonKind decorators with
        | some kind => [{ id := kind ++ ":" ++ nm, name := nm, kind := kind : GNode }]
        | none => []
      here ++ collectFuncNodesSL body
  | .sif _ thenB elseB => collectFuncNodesSL thenB ++ collectFuncNodesSL elseB

def collectFuncNodesSL : StmtList → List GNode
  | .nil => []
  | .cons st rest => collectFuncNodesS st ++ collectFuncNodesSL rest

end

/-! Call-edge collection (`_WorkflowEdgeCollector`).

The collector keeps a workflow stack but never descends into a nested
`FunctionDef` once inside a workflow, so the context is at most one
workflow name.  `visit_Call` fires on every call in pre-order, anywhere
under the workflow node (LibCST visits a `FunctionDef`'s name, parameters
and body before its decorators). -/

mutual

/-- Pre-order collection of raw call edges inside expressions, given the
enclosing workflow name. -/
def rawCallEdgesE (names : List String) (wf : String) : Expr → List GEdge
  | .ename _ | .estr _ | .eint _ | .efloat _ => []
  | .eattr base _ => rawCallEdgesE names wf base
  | .ecall f args =>
      let here :=
        match f with
        | .ename callee =>
            if callee ∈ names then
              [{ source := "workflow:" ++ wf, target := "node:" ++ callee,
                 kind := some "code" : GEdge }]
            else []
        | _ => []
      here ++ rawCallEdgesE names wf f ++ rawCallEdgesEA names wf args
  | .elist es => rawCallEdgesEL names wf es
  | .edict es => rawCallEdgesED names wf es

def rawCallEdgesEA (names : List String) (wf : String) : EArgs → List GEdge
  | .nil => []
  | .cons _ v rest => rawCallEdgesE names wf v ++ rawCallEdgesEA names wf rest

def rawCallEdgesEL (names : List String) (wf : String) : EList → List GEdge
  | .nil => []
  | .cons e rest => rawCallEdgesE names wf e ++ rawCallEdgesEL names wf rest

def rawCallEdgesED (names : List String) (wf : String) : EDict → List GEdge
  | .nil => []
  | .cons k v rest =>
      rawCallEdgesE names wf k ++ rawCallEdgesE names wf v ++
        rawCallEdgesED names wf rest

end

def rawCallEdgesSmall (names : List String) (wf : String) : SmallStmt → List GEdge
  | .sexpr e => rawCallEdgesE names wf e
  | .sassign _ v => rawCallEdgesE names wf v
  | .sret (some e) => rawCallEdgesE names wf e
  | .sret none => []
  | .simportFrom _ _ _ => []
  | .simport _ => []
  | .spass => []

mutual

/-- Statement traversal with the workflow stack: outside a workflow,
descend looking for workflows; inside one, collect calls but skip nested
`FunctionDef`s entirely (`visit_FunctionDef` returns `False`). -/
def rawCallEdgesS (names : List String) (wf : Option String) : Stmt → List GEdge
  | .sline body =>
      match wf with
      | some w => (body.map (rawCallEdgesSmall names w)).flatten
      | none => []
  | .sfunc decorators nm body =>
      match wf with
      | some _ => []
      | none =>
          if extractHolonKind decorators = some "workflow" then
            rawCallEdgesSL names (some nm) body ++
              (decorators.map (rawCallEdgesE names nm)).flatten
          else
            rawCallEdgesSL names none body
  | .sif cond thenB elseB =>
      (match wf with
       | some w => rawCallEdgesE names w cond
       | none => []) ++
        rawCallEdgesSL names wf thenB ++ rawCallEdgesSL names wf elseB

def rawCallEdgesSL (names : List String) (wf : Option String) : StmtList → List GEdge
  | .nil => []
  | .cons st rest => rawCallEdgesS names wf st ++ rawCallEdgesSL names wf rest

end

/-- The `_seen` sets: keep the first occurrence of each item, in order. -/
def dedupFirst [DecidableEq α] (l : List α) : List α :=
  l.foldl (fun acc x => if x ∈ acc then acc else acc ++ [x]) []

/-- Embeds `_parse_link_call`: at least four arguments, the first four string
literals (keyword or not). -/
def parseLinkCall (args : EArgs) : Option GEdge :=
  match args with
  | .cons kw0 v0 (.cons kw1 v1 (.cons kw2 v2 (.cons kw3 v3 _))) =>
      match stringArgValue kw0 v0, stringArgValue kw1 v1,
            stringArgValue kw2 v2, stringArgValue kw3 v3 with
      | some src, some src_port, some tgt, some tgt_port =>
          some { source := src, target := tgt, source_port := some src_port,
                 target_port := some tgt_port, kind := some "link" }
      | _, _, _, _ => none
  | _ => none

mutual

/-- Embeds `_WorkflowLinkCollector.visit_Call` over expressions: any call whose
callee matches `link` (bare name or attribute) inside a workflow. -/
def rawLinkEdgesE : Expr → List GEdge
  | .ename _ | .estr _ | .eint _ | .efloat _ => []
  | .eattr base _ => rawLinkEdgesE base
  | .ecall f args =>
      let here :=
        if callMatches f "link" then
          match parseLinkCall args with
          | some e => [e]
          | none => []
        else []
      here ++ rawLinkEdgesE f ++ rawLinkEdgesEA args
  | .elist es => rawLinkEdgesEL es
  | .edict es => rawLinkEdgesED es

def rawLinkEdgesEA : EArgs → List GEdge
  | .nil => []
  | .cons _ v rest => rawLinkEdgesE v ++ rawLinkEdgesEA rest

def rawLinkEdgesEL : EList → List GEdge
  | .nil => []
  | .cons e rest => rawLinkEdgesE e ++ rawLinkEdgesEL rest

def rawLinkEdgesED : EDict → List GEdge
  | .nil => []
  | .cons k v rest => rawLinkEdgesE k ++ rawLinkEdgesE v ++ rawLinkEdgesED rest

end

def rawLinkEdgesSmall : SmallStmt → List GEdge
  | .sexpr e => rawLinkEdgesE e
  | .sassign _ v => rawLinkEdgesE v
  | .sret (some e) => rawLinkEdgesE e
  | .sret none => []
  | .simportFrom _ _ _ => []
  | .simport _ => []
  | .spass => []

mutual

/-- Embeds `_WorkflowLinkCollector` statement traversal: same stack discipline as
the call-edge collector. -/
def rawLinkEdgesS (inWf : Bool) : Stmt → List GEdge
  | .sline body =>
      if inWf then (body.map rawLinkEdgesSmall).flatten else []
  | .sfunc decorators _ body =>
      if inWf then []
      else if extractHolonKind decorators = some "workflow" then
        rawLinkEdgesSL true body ++ (decorators.map rawLinkEdgesE).flatten
      else
        rawLinkEdgesSL false body
  | .sif cond thenB elseB =>
      (if inWf then rawLinkEdgesE cond else []) ++
        rawLinkEdgesSL inWf thenB ++ rawLinkEdgesSL inWf elseB

def rawLinkEdgesSL (inWf : Bool) : StmtList → List GEdge
  | .nil => []
  | .cons st rest => rawLinkEdgesS inWf st ++ rawLinkEdgesSL inWf rest

end

/-- Embeds `parse_graph`: function/workflow nodes, then spec nodes; call edges
(deduplicated by first occurrence), then link edges (likewise). -/
def parse_graph (m : PyModule) : Graph :=
  let funcNodes := collectFuncNodesSL m
  let specNodes := collectSpecNodes m
  let node_names := (funcNodes.filter (fun n => n.kind = "node")).map (·.name)
  let callEdges := dedupFirst (rawCallEdgesSL node_names none m)
  let linkEdges := dedupFirst (rawLinkEdgesSL false m)
  { nodes := funcNodes ++ specNodes, edges := callEdges ++ linkEdges }

/-! ## Patcher (`src/core/holon/services/patcher.py`) -/

/-! ### `rename_node`

`_RenameNodeTransformer.leave_Call` renames a direct call `old_name(...)`
only when `_is_within_workflow` holds, i.e. when the *nearest* enclosing
`FunctionDef` (found by walking `ParentNodeProvider` upward) is decorated
with `@workflow`.  In the embedding that parent walk becomes a boolean
context `wf` threaded downward: entering a `FunctionDef` resets it to
whether *that* function is `@workflow`-decorated (this also governs the
function's own decorator expressions, whose nearest `FunctionDef` parent
is the decorated function itself).  `leave_FunctionDef` renames any
`@node`-decorated definition of `old_name`, at any depth. -/

mutual

def renameE (o n : String) (wf : Bool) : Expr → Expr
  | .ename s => .ename s
  | .estr s => .estr s
  | .eint k => .eint k
  | .efloat s => .efloat s
  | .eattr base a => .eattr (renameE o n wf base) a
  | .ecall f args =>
      let args' := renameEA o n wf args
      if wf ∧ f = .ename o then .ecall (.ename n) args'
      else .ecall (renameE o n wf f) args'
  | .elist es => .elist (renameEL o n wf es)
  | .edict es => .edict (renameED o n wf es)

def renameEA (o n : String) (wf : Bool) : EArgs → EArgs
  | .nil => .nil
  | .cons kw v rest => .cons kw (renameE o n wf v) (renameEA o n wf rest)

def renameEL (o n : String) (wf : Bool) : EList → EList
  | .nil => .nil
  | .cons e rest => .cons (renameE o n wf e) (renameEL o n wf rest)

def renameED (o n : String) (wf : Bool) : EDict → EDict
  | .nil => .nil
  | .cons k v rest => .cons (renameE o n wf k) (renameE o n wf v) (renameED o n wf rest)

end

def renameSmall (o n : String) (wf : Bool) : SmallStmt → SmallStmt
  | .sexpr e => .sexpr (renameE o n wf e)
  | .sassign t v => .sassign t (renameE o n wf v)
  | .sret (some e) => .sret (some (renameE o n wf e))
  | .sret none => .sret none
  | .simportFrom md st ns => .simportFrom md st ns
  | .simport md => .simport md
  | .spass => .spass

mutual

def renameS (o n : String) (wf : Bool) : Stmt → Stmt
  | .sline body => .sline (body.map (renameSmall o n wf))
  | .sfunc decorators nm body =>
      let isWf := isDecoratedAs decorators "workflow"
      let nm' := if isDecoratedAs decorators "node" ∧ nm = o then n else nm
      .sfunc (decorators.map (renameE o n isWf)) nm' (renameSL o n isWf body)
  | .sif cond thenB elseB =>
      .sif (renameE o n wf cond) (renameSL o n wf thenB) (renameSL o n wf elseB)

def renameSL (o n : String) (wf : Bool) : StmtList → StmtList
  | .nil => .nil
  | .cons st rest => .cons (renameS o n wf st) (renameSL o n wf rest)

end

/-- Embeds `rename_node`: raises if the names are equal; the transformer's
`__post_init__` raises if either name is empty; otherwise the transformed
module is returned (there is no not-found check). -/
def rename_node (source : PyModule) (old_name new_name : String) :
    Except String PyModule :=
  if old_name = new_name then
    .error "old_name and new_name must differ"
  else if old_name = "" ∨ new_name = "" then
    .error "old_name and new_name must be non-empty"
  else
    .ok (renameSL old_name new_name false source)

/-! ### `patch_spec_node` -/
/-! ### `_from_cst_jsonish`

A best-effort reader: unlike `jsonishValue` it never rejects a whole
structure for one bad member — unsupported expressions read as Python
`None` (`Option.none` here), `None` members of a list or dict read as
`null`, and only a non-string-literal dict key drops the enclosing dict
to `None`. -/

mutual

def fromCstJsonish : Expr → Option JValue
  | .estr s => some (.jstr s)
  | .eint n => some (.jint n)
  | .efloat s => some (.jfloat s)
  | .ename s =>
      if s = "True" then some (.jbool true)
      else if s = "False" then some (.jbool false)
      else none
  | .elist es => some (.jarr (fromCstJsonishL es))
  | .edict es => (fromCstJsonishD es JObj.nil).map .jobj
  | _ => none

def fromCstJsonishL : EList → JArr
  | .nil => .nil
  | .cons e rest => .cons ((fromCstJsonish e).getD .jnull) (fromCstJsonishL rest)

def fromCstJsonishD : EDict → JObj → Option JObj
  | .nil, out => some out
  | .cons kx vx rest, out =>
      match stringExprValue kx with
      | none => none
      | some k => fromCstJsonishD rest (out.setKey k ((fromCstJsonish vx).getD .jnull))

end

/-- Embeds the keyword loop of `_extract_spec_call_fields` over
`call.args[1:]` (an `elif` chain, later occurrences of a keyword win). -/
def extractSpecCallFields : EArgs →
    Option String × Option String × Option JValue →
    Option String × Option String × Option JValue
  | .nil, acc => acc
  | .cons kw v rest, (t, l, p) =>
      match kw with
      | none => extractSpecCallFields rest (t, l, p)
      | some k =>
          if k = "type" then extractSpecCallFields rest (stringExprValue v, l, p)
          else if k = "label" then extractSpecCallFields rest (t, stringExprValue v, p)
          else if k = "props" then extractSpecCallFields rest (t, l, fromCstJsonish v)
          else extractSpecCallFields rest (t, l, p)

/-! Embedding of `_to_cst_jsonish`: JSON values back to CST expressions;
strings become `SimpleString`s of their JSON dump (evaluated value kept
here), dict keys are always strings in `JObj` so the non-string-key
fallback branch is unreachable. -/

mutual

def toCstJsonish : JValue → Expr
  | .jnull => .ename "None"
  | .jbool true => .ename "True"
  | .jbool false => .ename "False"
  | .jint n => .eint n
  | .jfloat s => .efloat s
  | .jstr s => .estr s
  | .jarr xs => .elist (toCstJsonishL xs)
  | .jobj kvs => .edict (toCstJsonishD kvs)

def toCstJsonishL : JArr → EList
  | .nil => .nil
  | .cons v rest => .cons (toCstJsonish v) (toCstJsonishL rest)

def toCstJsonishD : JObj → EDict
  | .nil => .nil
  | .cons k v rest => .cons (.estr k) (toCstJsonish v) (toCstJsonishD rest)

end

/-! ### `patch_spec_node` -/

/-- Parameters of `patch_spec_node`; the `set_*` flags distinguish "not
provided" from "explicitly set to None". -/
structure PatchArgs where
  node_id : String
  node_type : Option String := none
  label : Option String := none
  props : Option JObj := none
  set_node_type : Bool := false
  set_label : Bool := false
  set_props : Bool := false

/-- Embeds the trailing `props`/`label` argument assembly of
`_PatchSpecNodeTransformer`: each is appended only when not `None`. -/
def specPatchTailArgs (nextP : Option JValue) : EArgs :=
  match nextP with
  | some p => .cons (some "props") (toCstJsonish p) .nil
  | none => .nil

/-- Embeds the body of `_PatchSpecNodeTransformer.leave_SimpleStatementLine`
once a `spec(...)` call is in hand: `none` when the first argument is not
the target id, otherwise the rebuilt call — or the `ValueError` raised when
the resulting `type` is missing or empty. -/
def specCallPatch (pa : PatchArgs) (f : Expr) (args : EArgs) :
    Option (Except String Expr) :=
  match args with
  | .nil => none
  | .cons _ v0 rest =>
      match stringExprValue v0 with
      | none => none
      | some nid =>
          if nid = pa.node_id then
            match extractSpecCallFields rest (none, none, none) with
            | (curT, curL, curP) =>
                let nextT := if pa.set_node_type then pa.node_type else curT
                let nextL := if pa.set_label then pa.label else curL
                let nextP : Option JValue :=
                  if pa.set_props then pa.props.map .jobj else curP
                match nextT with
                | none => some (.error "spec(type=...) must be a non-empty string")
                | some ty =>
                    if ty = "" then
                      some (.error "spec(type=...) must be a non-empty string")
                    else
                      let tl :=
                        match nextL with
                        | some l => EArgs.cons (some "label") (.estr l)
                                      (specPatchTailArgs nextP)
                        | none => specPatchTailArgs nextP
                      some (.ok (.ecall f
                        (.cons none (.estr pa.node_id)
                          (.cons (some "type") (.estr ty) tl))))
          else none

/-- Embeds the statement-line match of `_PatchSpecNodeTransformer`: a
one-statement line holding a `spec(...)` call (bare or single assignment),
rebuilt around the patched call while keeping the statement shape. -/
def patchSpecLine (pa : PatchArgs) (body : List SmallStmt) :
    Option (Except String (List SmallStmt)) :=
  match body with
  | [.sexpr (.ecall f args)] =>
      if callMatches f "spec" then
        (specCallPatch pa f args).map (·.map fun c => [.sexpr c])
      else none
  | [.sassign t (.ecall f args)] =>
      if callMatches f "spec" then
        (specCallPatch pa f args).map (·.map fun c => [.sassign t c])
      else none
  | _ => none

mutual

/-- Embeds the document-order traversal of `_PatchSpecNodeTransformer`;
the `Bool` is the `patched` flag, and a raised `ValueError` aborts the
whole patch. -/
def patchSpecS (pa : PatchArgs) : Stmt → Bool → Except String (Stmt × Bool)
  | .sline body, done =>
      if done then .ok (.sline body, true)
      else
        match patchSpecLine pa body with
        | none => .ok (.sline body, false)
        | some (.error m) => .error m
        | some (.ok body') => .ok (.sline body', true)
  | .sfunc decs nm body, done =>
      match patchSpecSL pa body done with
      | .error m => .error m
      | .ok (body', done') => .ok (.sfunc decs nm body', done')
  | .sif c thenB elseB, done =>
      match patchSpecSL pa thenB done with
      | .error m => .error m
      | .ok (t', d1) =>
          match patchSpecSL pa elseB d1 with
          | .error m => .error m
          | .ok (e', d2) => .ok (.sif c t' e', d2)

def patchSpecSL (pa : PatchArgs) : StmtList → Bool → Except String (StmtList × Bool)
  | .nil, done => .ok (.nil, done)
  | .cons s rest, done =>
      match patchSpecS pa s done with
      | .error m => .error m
      | .ok (s', d1) =>
          match patchSpecSL pa rest d1 with
          | .error m => .error m
          | .ok (rest', d2) => .ok (.cons s' rest', d2)

end

/-- Embeds `patch_spec_node`: transform, then raise
`ValueError("spec node not found: ...")` if nothing was patched. -/
def patch_spec_node (source : PyModule) (pa : PatchArgs) : Except String PyModule :=
  match patchSpecSL pa source false with
  | .error m => .error m
  | .ok (m', patched) =>
      if patched then .ok m'
      else .error ("spec node not found: " ++ pa.node_id)

/-! ### `_ensure_holon_imports` and `add_link` -/

/-- Insertion sort, standing in for Python's `sorted` on strings. -/
def sortStrings : List String → List String
  | [] => []
  | s :: rest => insertSorted s (sortStrings rest)
where
  insertSorted (s : String) : List String → List String
    | [] => [s]
    | t :: rest => if s ≤ t then s :: t :: rest else t :: insertSorted s rest

/-- Embeds `_ImportEdit.leave_ImportFrom`: a non-star `from holon import`
gets the missing required names appended, in sorted order. -/
def importEditSmall (required : List String) : SmallStmt → SmallStmt
  | .simportFrom (some md) false names =>
      if md = "holon" then
        .simportFrom (some md) false
          (names ++ (sortStrings required).filter (· ∉ names))
      else .simportFrom (some md) false names
  | s => s

/-- True when a statement line would set `_ImportEdit.found`. -/
def holonImportInSmall : SmallStmt → Bool
  | .simportFrom (some md) false _ => md = "holon"
  | _ => false

mutual

def importEditS (required : List String) : Stmt → Stmt
  | .sline body => .sline (body.map (importEditSmall required))
  | .sfunc decs nm body => .sfunc decs nm (importEditSL required body)
  | .sif c t e => .sif c (importEditSL required t) (importEditSL required e)

def importEditSL (required : List String) : StmtList → StmtList
  | .nil => .nil
  | .cons s rest => .cons (importEditS required s) (importEditSL required rest)

end

mutual

def holonImportFoundS : Stmt → Bool
  | .sline body => body.any holonImportInSmall
  | .sfunc _ _ body => holonImportFoundSL body
  | .sif _ t e => holonImportFoundSL t || holonImportFoundSL e

def holonImportFoundSL : StmtList → Bool
  | .nil => false
  | .cons s rest => holonImportFoundS s || holonImportFoundSL rest

end

/-- True for a `SimpleStatementLine` whose first small statement is
an import statement (the `insert_at` scan of `_ensure_holon_imports`). -/
def isImportLine : Stmt → Bool
  | .sline (h :: _) =>
      match h with
      | .simportFrom _ _ _ => true
      | .simport _ => true
      | _ => false
  | _ => false

/-- Embeds the `insert_at` loop: one past the index of the last
top-level import line, `0` when there is none. -/
def importInsertAt : List Stmt → Nat
  | [] => 0
  | s :: rest =>
      let sub := importInsertAt rest
      if sub = 0 then (if isImportLine s then 1 else 0) else sub + 1

def insertAt (l : List Stmt) (i : Nat) (s : Stmt) : List Stmt :=
  l.take i ++ [s] ++ l.drop i

/-- The required names `{"spec", "link"}` that `add_spec_node` and
`add_link` pass to `_ensure_holon_imports`. -/
def holonRequiredNames : List String := ["spec", "link"]

def newHolonImport (required : List String) : Stmt :=
  .sline [.simportFrom (some "holon") false (sortStrings required)]

/-- Embeds `_ensure_holon_imports`: edit every `from holon import ...`
(at any depth — the transformer visits nested bodies too); if none exists
anywhere, insert a fresh one after the last top-level import. -/
def ensureHolonImports (required : List String) (m : PyModule) : PyModule :=
  let m' := importEditSL required m
  if holonImportFoundSL m then m'
  else
    let l := m'.toList
    StmtList.ofList (insertAt l (importInsertAt l) (newHolonImport required))

/-- The `link(...)` wiring statement `_AddLinkTransformer` builds (string
literals carry their evaluated values). -/
def mkLinkStmt (sid sp tid tp : String) : Stmt :=
  .sline [.sexpr (.ecall (.ename "link")
    (.cons none (.estr sid) (.cons none (.estr sp)
      (.cons none (.estr tid) (.cons none (.estr tp) .nil)))))]

/-- True when the last statement of a body is a `SimpleStatementLine`
whose first small statement is a `Return`. -/
def isReturnLine : Stmt → Bool
  | .sline (h :: _) =>
      match h with
      | .sret _ => true
      | _ => false
  | _ => false

/-- Embeds the placement step of `_AddLinkTransformer`: insert immediately
before a trailing return line, otherwise append at the end. -/
def insertBeforeTrailingReturn (lk : Stmt) : StmtList → StmtList
  | .nil => .cons lk .nil
  | .cons s .nil =>
      if isReturnLine s then .cons lk (.cons s .nil) else .cons s (.cons lk .nil)
  | .cons s rest => .cons s (insertBeforeTrailingReturn lk rest)

mutual

/-- Embeds `_AddLinkTransformer.leave_FunctionDef` (fires bottom-up at
every depth): each `@workflow`-decorated function with the requested name
gets one wiring statement placed in its body. -/
def addLinkS (wfName sid sp tid tp : String) : Stmt → Stmt
  | .sline body => .sline body
  | .sfunc decs nm body =>
      let body' := addLinkSL wfName sid sp tid tp body
      if isDecoratedAs decs "workflow" ∧ nm = wfName then
        .sfunc decs nm (insertBeforeTrailingReturn (mkLinkStmt sid sp tid tp) body')
      else .sfunc decs nm body'
  | .sif c thenB elseB =>
      .sif c (addLinkSL wfName sid sp tid tp thenB)
        (addLinkSL wfName sid sp tid tp elseB)

def addLinkSL (wfName sid sp tid tp : String) : StmtList → StmtList
  | .nil => .nil
  | .cons s rest =>
      .cons (addLinkS wfName sid sp tid tp s) (addLinkSL wfName sid sp tid tp rest)

end

/-- Embeds `add_link`: run the transformer, then `leave_Module` ensures the
holon imports on the updated module. -/
def add_link (source : PyModule) (workflow_name sid sp tid tp : String) : PyModule :=
  ensureHolonImports holonRequiredNames (addLinkSL workflow_name sid sp tid tp source)

/-! ### `delete_node` -/

/-- The id a top-level statement declares: a `spec(...)` line declares its
literal first argument, an `@node`/`@workflow` function its derived
`node:<name>` / `workflow:<name>` id. -/
def declIdOf : Stmt → Option String
  | .sline body =>
      match callFromSimpleStmt body with
      | some (.ecall f args) =>
          if callMatches f "spec" then
            match args with
            | .cons kw0 v0 _ => stringArgValue kw0 v0
            | .nil => none
          else none
      | _ => none
  | .sfunc decs nm _ =>
      match extractHolonKind decs with
      | some kind => some (kind ++ ":" ++ nm)
      | none => none
  | .sif _ _ _ => none

def removeFirstDecl (node_id : String) : StmtList → StmtList
  | .nil => .nil
  | .cons s rest =>
      if declIdOf s = some node_id then rest
      else .cons s (removeFirstDecl node_id rest)

/-- Modelled from the spec: `delete_node` is imported from
`holon.services.patcher` by the RPC server and the dev server, but its
definition is not present under `src/`.  Per the specification
("delete_node(id) — removes the declaration"; "TargetNotFound
(rename/patch/delete referencing a nonexistent name or id) — reported as
a caller error") it removes the first top-level declaration whose id
matches and fails with a not-found error when no declaration with that id
exists, leaving the input unmodified. -/
def delete_node (source : PyModule) (node_id : String) : Except String PyModule :=
  if source.toList.any (fun st => declIdOf st = some node_id) then
    .ok (removeFirstDecl node_id source)
  else
    .error ("node not found: " ++ node_id)

/-! ## Ports (`src/core/holon/execution/ports.py`)

Port values are arbitrary Python objects; the embedding is polymorphic in
the value type `V`, with `Option V` standing for "a value that may be
Python `None`".  The `values` dict maps `(node_id, port_id)` to such a
value; `get_value` returns `None` both for a missing key and for a stored
`None` (`dict.get` with default `None`). -/

structure PortConnection where
  source_node : String
  source_port : String
  target_node : String
  target_port : String
deriving DecidableEq, Repr

abbrev PortVals (V : Type) := List ((String × String) × Option V)

/-- Python dict lookup on the values map. -/
def pvLookup {V : Type} : PortVals V → String × String → Option (Option V)
  | [], _ => none
  | (k, ov) :: rest, key => if k = key then some ov else pvLookup rest key

/-- Embeds `PortRegistry.set_value` (dict assignment: overwrite in place,
else append). -/
def set_value {V : Type} : PortVals V → String → String → Option V → PortVals V
  | [], nid, pid, v => [((nid, pid), v)]
  | (k, ov) :: rest, nid, pid, v =>
      if k = (nid, pid) then (k, v) :: rest
      else (k, ov) :: set_value rest nid pid v

/-- Removing a key outright — the state in which the value was never
produced at all (used to compare against a stored `None`). -/
def eraseValue {V : Type} : PortVals V → String → String → PortVals V
  | [], _, _ => []
  | (k, ov) :: rest, nid, pid =>
      if k = (nid, pid) then eraseValue rest nid pid
      else (k, ov) :: eraseValue rest nid pid

/-- Embeds `PortRegistry.get_value`: `self.values.get(key)` — `None` for a
missing key, and the stored value (which may itself be `None`) otherwise. -/
def get_value {V : Type} (vals : PortVals V) (nid pid : String) : Option V :=
  match pvLookup vals (nid, pid) with
  | none => none
  | some ov => ov

/-- Dict insert-or-overwrite for the `inputs` dictionary being built by
`get_inputs_for_node`. -/
def dictSet {V : Type} : List (String × V) → String → V → List (String × V)
  | [], k, v => [(k, v)]
  | (k', v') :: rest, k, v =>
      if k' = k then (k', v) :: rest else (k', v') :: dictSet rest k v

/-- Embeds `PortRegistry.get_inputs_for_node`: scan connections in order;
a source value of `None` (missing or stored) contributes nothing. -/
def get_inputs_for_node {V : Type} (conns : List PortConnection)
    (vals : PortVals V) (node_id : String) : List (String × V) :=
  conns.foldl
    (fun inputs conn =>
      if conn.target_node = node_id then
        match get_value vals conn.source_node conn.source_port with
        | some v => dictSet inputs conn.target_port v
        | none => inputs
      else inputs)
    []

/-- Embeds `PortRegistry.get_dependencies`: sources of the connections
targeting the node (a Python set — only membership is ever used). -/
def get_dependencies (conns : List PortConnection) (node_id : String) : List String :=
  conns.filterMap (fun c => if c.target_node = node_id then some c.source_node else none)

/-! ## Engine (`src/core/holon/execution/engine.py`) -/

/-- Python truthiness of an optional string (`edge.source_port and
edge.target_port`). -/
def truthyOptStr : Option String → Bool
  | none => false
  | some s => s ≠ ""

/-- Embeds `_register_port_connections`: one connection per edge carrying
truthy source and target ports. -/
def registerPortConnections (edges : List GEdge) : List PortConnection :=
  edges.filterMap (fun e =>
    if truthyOptStr e.source_port ∧ truthyOptStr e.target_port then
      some { source_node := e.source, source_port := e.source_port.getD "",
             target_node := e.target, target_port := e.target_port.getD "" }
    else none)

/-- Embeds the executable-set selection of `_build_execution_order`:
workflow-entry ids are skipped; function nodes and `langchain.agent` spec
nodes are executable. -/
def executableIds (nodes : List GNode) : List String :=
  nodes.foldl
    (fun acc nd =>
      if nd.id.startsWith "workflow:" then acc
      else
        (acc ++ (if nd.kind = "node" then [nd.id] else [])) ++
          (if nd.kind = "spec" ∧ nd.node_type = some "langchain.agent"
           then [nd.id] else []))
    []

/-- Embeds the ready-set loop of `_build_execution_order`.  `remaining`
models Python's working set as an order-kept list; each round selects the
nodes all of whose executable dependencies have been ordered, falling back
to the first remaining node when none is ready (the cycle tie-break).  The
fuel argument — one unit per round, `remaining.length` at the start — is
how the loop's termination is accounted for: the correctness theorem shows
this much fuel always suffices. -/
def readySet (conns : List PortConnection) (remaining : List String) : List String :=
  remaining.filter (fun nid => ¬ (get_dependencies conns nid).any (· ∈ remaining))

def buildOrderAux (conns : List PortConnection) : Nat → List String → List String
  | 0, _ => []
  | _ + 1, [] => []
  | fuel + 1, r :: rs =>
      let ready := readySet conns (r :: rs)
      let ready' := if ready = [] then [r] else ready
      ready' ++ buildOrderAux conns fuel ((r :: rs).filter (· ∉ ready'))

/-- Embeds `_build_execution_order` for a graph: executable ids,
deduplicated (`set(executable)`), then the ready-set loop. -/
def build_execution_order (g : Graph) : List String :=
  let ex := dedupFirst (executableIds g.nodes)
  buildOrderAux (registerPortConnections g.edges) ex.length ex

/-- One entry of `ctx.execution_trace`. -/
structure TraceEntry where
  node_id : String
  status : String
  error : Option String
deriving DecidableEq, Repr

/-- Embeds `_find_node`: first node with the given id. -/
def findNode (nodes : List GNode) (node_id : String) : Option GNode :=
  nodes.find? (fun nd => nd.id = node_id)

/-- The trace entry a non-raising iteration of `_execute_nodes` appends
for a node id: the "Node not found in graph" error entry when the id is
absent from the graph, a success entry otherwise. -/
def stepEntry {V : Type} (exec1 : String → Except String V) (nodes : List GNode)
    (nid : String) : TraceEntry :=
  let _ := exec1
  match findNode nodes nid with
  | none => { node_id := nid, status := "error", error := some "Node not found in graph" }
  | some _ => { node_id := nid, status := "success", error := none }

/-- One iteration of `_execute_nodes` does not raise: either the node is
missing from the graph (error entry, `continue`), or its execution
succeeds. -/
def stepOk {V : Type} (exec1 : String → Except String V) (nodes : List GNode)
    (nid : String) : Prop :=
  findNode nodes nid = none ∨ ∃ v, exec1 nid = .ok v

instance {V : Type} (exec1 : String → Except String V) (nodes : List GNode)
    (nid : String) : Decidable (stepOk exec1 nodes nid) := by
  unfold stepOk
  cases h : exec1 nid with
  | ok v => exact .isTrue (.inr ⟨v, rfl⟩)
  | error m =>
      cases hf : findNode nodes nid with
      | none => exact .isTrue (.inl rfl)
      | some nd =>
          refine .isFalse ?_
          rintro (hc | ⟨v, hc⟩) <;> simp_all

/-- Embeds the node loop of `_execute_nodes`.  The body of the `try`
block — agent call, resolved-spec lookup or function-node execution — is
abstracted as the oracle `exec1` giving each node id's outcome; `res` is
the running `result` (the last successful output, `None` initially).  A
missing node appends an error trace entry and continues; an exception
appends an error entry naming the node and re-raises, executing nothing
further. -/
def executeNodes {V : Type} (exec1 : String → Except String V) (nodes : List GNode) :
    List String → Option V → List TraceEntry × Except (String × String) (Option V)
  | [], res => ([], .ok res)
  | nid :: rest, res =>
      match findNode nodes nid with
      | none =>
          let (tr, out) := executeNodes exec1 nodes rest res
          ({ node_id := nid, status := "error",
             error := some "Node not found in graph" } :: tr, out)
      | some _ =>
          match exec1 nid with
          | .ok v =>
              let (tr, out) := executeNodes exec1 nodes rest (some v)
              ({ node_id := nid, status := "success", error := none } :: tr, out)
          | .error msg =>
              ([{ node_id := nid, status := "error", error := some msg }],
               .error (nid, msg))

/-! ## Resolver (`src/core/holon/execution/resolver.py` and
`src/core/holon/registry.py`)

The registry is embedded as a partial map from type ids to resolver
functions (`SpecTypeRegistry._resolvers`, last registration wins — lookup
is all the resolver uses).  Resolver calls may raise.  A runtime object is
either the `SimpleNamespace(**props)` property bag built when no resolver
is registered, or whatever a registered resolver returns. -/

inductive RObj where
  | bag (props : JObj)
  | custom (tag : String) (props : JObj)
deriving DecidableEq, Repr

abbrev Registry := String → Option (JObj → Except String RObj)

/-- Embeds `has_spec_type` / `SpecTypeRegistry.has_resolver`. -/
def has_spec_type (reg : Registry) (type_id : String) : Bool :=
  (reg type_id).isSome

structure ResolvedNode where
  node_id : String
  node_type : String
  props : JObj
  runtime_object : RObj
deriving DecidableEq, Repr

abbrev RCache := List (String × ResolvedNode)

/-- Dict lookup in `SpecResolver._cache`. -/
def cacheLookup : RCache → String → Option ResolvedNode
  | [], _ => none
  | (k, r) :: rest, nid => if k = nid then some r else cacheLookup rest nid

/-- Embeds `SpecResolver.resolve`.  Returns the updated cache, the
resolved node and whether a registered type resolver was actually invoked
(`False` on a cache hit and on the property-bag fallback). -/
def SpecResolver.resolve (reg : Registry) (cache : RCache) (node_id node_type : String)
    (props : JObj) : Except String (RCache × ResolvedNode × Bool) :=
  match cacheLookup cache node_id with
  | some r => .ok (cache, r, false)
  | none =>
      match reg node_type with
      | none =>
          let res : ResolvedNode :=
            { node_id := node_id, node_type := node_type, props := props,
              runtime_object := .bag props }
          .ok (cache ++ [(node_id, res)], res, false)
      | some f =>
          match f props with
          | .error e => .error e
          | .ok obj =>
              let res : ResolvedNode :=
                { node_id := node_id, node_type := node_type, props := props,
                  runtime_object := obj }
              .ok (cache ++ [(node_id, res)], res, true)

/-- Embeds `_resolve_spec_nodes` (engine step 2): resolve each spec node
with a truthy `node_type` in node-list order, storing the runtime object
under `(node_id, "output")`; a resolution failure re-raises immediately. -/
def resolveSpecNodes (reg : Registry) :
    List GNode → RCache → PortVals RObj → Except String (RCache × PortVals RObj)
  | [], cache, vals => .ok (cache, vals)
  | nd :: rest, cache, vals =>
      if nd.kind = "spec" ∧ truthyOptStr nd.node_type then
        match SpecResolver.resolve reg cache nd.id (nd.node_type.getD "")
            (nd.props.getD .nil) with
        | .error e => .error e
        | .ok (cache', res, _) =>
            resolveSpecNodes reg rest cache'
              (set_value vals nd.id "output" (some res.runtime_object))
      else
        resolveSpecNodes reg rest cache vals

/-! ## Specification-side predicates

These definitions follow the wording of the specification / claims (not
the code), to state the properties against. -/

mutual

/-- Number of direct, unqualified call sites of `o` — `Call` nodes whose
callee expression is exactly the bare name `o` — anywhere in an
expression. -/
def countCallsToE (o : String) : Expr → Nat
  | .ename _ | .estr _ | .eint _ | .efloat _ => 0
  | .eattr base _ => countCallsToE o base
  | .ecall f args =>
      (if f = .ename o then 1 else 0) + countCallsToE o f + countCallsToEA o args
  | .elist es => countCallsToEL o es
  | .edict es => countCallsToED o es

def countCallsToEA (o : String) : EArgs → Nat
  | .nil => 0
  | .cons _ v rest => countCallsToE o v + countCallsToEA o rest

def countCallsToEL (o : String) : EList → Nat
  | .nil => 0
  | .cons e rest => countCallsToE o e + countCallsToEL o rest

def countCallsToED (o : String) : EDict → Nat
  | .nil => 0
  | .cons k v rest => countCallsToE o k + countCallsToE o v + countCallsToED o rest

end

def countCallsToSmall (o : String) : SmallStmt → Nat
  | .sexpr e => countCallsToE o e
  | .sassign _ v => countCallsToE o v
  | .sret (some e) => countCallsToE o e
  | .sret none => 0
  | .simportFrom _ _ _ => 0
  | .simport _ => 0
  | .spass => 0

mutual

/-- Number of direct, unqualified call sites of `o` anywhere in a
statement, nested declarations included. -/
def countCallsToS (o : String) : Stmt → Nat
  | .sline body => (body.map (countCallsToSmall o)).sum
  | .sfunc decs _ body =>
      (decs.map (countCallsToE o)).sum + countCallsToSL o body
  | .sif c t e => countCallsToE o c + countCallsToSL o t + countCallsToSL o e

def countCallsToSL (o : String) : StmtList → Nat
  | .nil => 0
  | .cons s rest => countCallsToS o s + countCallsToSL o rest

end

mutual

/-- Number of direct, unqualified call sites of `o` occurring lexically
inside a `@workflow`-annotated declaration (at any depth inside it,
nested declarations included) — the claim's reading of "inside a
workflow-annotated declaration". -/
def wfCallSitesS (o : String) : Stmt → Nat
  | .sline _ => 0
  | .sfunc decs _ body =>
      if isDecoratedAs decs "workflow" then
        (decs.map (countCallsToE o)).sum + countCallsToSL o body
      else wfCallSitesSL o body
  | .sif _ t e => wfCallSitesSL o t + wfCallSitesSL o e

def wfCallSitesSL (o : String) : StmtList → Nat
  | .nil => 0
  | .cons s rest => wfCallSitesS o s + wfCallSitesSL o rest

end

/-- True when a statement line is a `spec(...)` declaration of the given
id, in exactly the shape `_PatchSpecNodeTransformer` targets. -/
def isSpecDeclLine (nid : String) (body : List SmallStmt) : Bool :=
  match callFromSimpleStmt body with
  | some (.ecall f args) =>
      callMatches f "spec" &&
        (match args with
         | .cons _ v0 _ => stringExprValue v0 = some nid
         | .nil => false)
  | _ => false

mutual

/-- A `spec(...)` declaration with the given id exists somewhere in the
statement (any depth). -/
def specDeclExistsS (nid : String) : Stmt → Bool
  | .sline body => isSpecDeclLine nid body
  | .sfunc _ _ body => specDeclExistsSL nid body
  | .sif _ t e => specDeclExistsSL nid t || specDeclExistsSL nid e

def specDeclExistsSL (nid : String) : StmtList → Bool
  | .nil => false
  | .cons s rest => specDeclExistsS nid s || specDeclExistsSL nid rest

end

mutual

/-- A function declaration with the given name exists somewhere (any
depth). -/
def funcDeclExistsS (nm : String) : Stmt → Bool
  | .sline _ => false
  | .sfunc _ nm' body => nm' = nm || funcDeclExistsSL nm body
  | .sif _ t e => funcDeclExistsSL nm t || funcDeclExistsSL nm e

def funcDeclExistsSL (nm : String) : StmtList → Bool
  | .nil => false
  | .cons s rest => funcDeclExistsS nm s || funcDeclExistsSL nm rest

end

/-- True when a props dict literal contains at least one non-literal
(non-JSON-representable) value — the claim's hypothesis for C1. -/
def hasNonJsonishValue : EDict → Bool
  | .nil => false
  | .cons _ v rest => (jsonishValue v).isNone || hasNonJsonishValue rest

/-- True when the last statement of a body is a return line (the
placement condition of `add_link`, on plain lists). -/
def endsWithReturnLine (L : List Stmt) : Bool :=
  match L.getLast? with
  | some s => isReturnLine s
  | none => false

/-- The index at which `add_link` places the wiring statement: before a
trailing return, else at the end. -/
def linkInsertIdx (L : List Stmt) : Nat :=
  if endsWithReturnLine L then L.length - 1 else L.length

/-- What the `add_link` pipeline does to a single statement apart from
the insertion itself: the link transformer then the import edit. -/
def procStmt (wfName sid sp tid tp : String) (st : Stmt) : Stmt :=
  importEditS holonRequiredNames (addLinkS wfName sid sp tid tp st)

/-- The body of a workflow after elementwise processing by the `add_link`
pipeline (before the insertion of the new wiring statement). -/
def procBody (wfName sid sp tid tp : String) (body : StmtList) : List Stmt :=
  (importEditSL holonRequiredNames (addLinkSL wfName sid sp tid tp body)).toList

/-! ## Theorems -/

/-! ### C8 — determinism of extraction -/

/-- C8: Extraction is deterministic — for every fixed input, two calls to
extraction return identical Graphs, node and edge order included; the
graph is the fixed composition of the collectors (function/workflow nodes
then spec nodes; call edges then link edges, each deduplicated by first
occurrence). -/
theorem parse_graph_deterministic (m : PyModule) :
    parse_graph m = parse_graph m ∧
    parse_graph m =
      { nodes := collectFuncNodesSL m ++ collectSpecNodes m,
        edges :=
          dedupFirst (rawCallEdgesSL
            (((collectFuncNodesSL m).filter (fun nd => nd.kind = "node")).map (·.name))
            none m) ++
            dedupFirst (rawLinkEdgesSL false m) } :=
  ⟨rfl, rfl⟩

/-! ### C10 — `None` port values are indistinguishable from missing ones -/

theorem pvLookup_set_self {V : Type} (vals : PortVals V) (s p : String) (v : Option V) :
    pvLookup (set_value vals s p v) (s, p) = some v := by
  induction vals with
  | nil => simp [set_value, pvLookup]
  | cons head rest ih =>
      obtain ⟨k, ov⟩ := head
      by_cases hk : k = (s, p) <;> simp [set_value, pvLookup, hk, ih]

theorem pvLookup_set_other {V : Type} (vals : PortVals V) (s p : String) (v : Option V)
    (key : String × String) (hne : key ≠ (s, p)) :
    pvLookup (set_value vals s p v) key = pvLookup vals key := by
  have hne' : (s, p) ≠ key := fun h => hne h.symm
  induction vals with
  | nil => simp [set_value, pvLookup, hne']
  | cons head rest ih =>
      obtain ⟨k, ov⟩ := head
      by_cases hk : k = (s, p)
      · subst hk
        simp [set_value, pvLookup, hne']
      · by_cases hk2 : k = key <;> simp [set_value, pvLookup, hk, hk2, ih, hne]

theorem pvLookup_erase_self {V : Type} (vals : PortVals V) (s p : String) :
    pvLookup (eraseValue vals s p) (s, p) = none := by
  induction vals with
  | nil => simp [eraseValue, pvLookup]
  | cons head rest ih =>
      obtain ⟨k, ov⟩ := head
      by_cases hk : k = (s, p) <;> simp [eraseValue, pvLookup, hk, ih]

theorem pvLookup_erase_other {V : Type} (vals : PortVals V) (s p : String)
    (key : String × String) (hne : key ≠ (s, p)) :
    pvLookup (eraseValue vals s p) key = pvLookup vals key := by
  have hne' : (s, p) ≠ key := fun h => hne h.symm
  induction vals with
  | nil => simp [eraseValue]
  | cons head rest ih =>
      obtain ⟨k, ov⟩ := head
      by_cases hk : k = (s, p)
      · subst hk
        simp [eraseValue, pvLookup, hne', ih]
      · by_cases hk2 : k = key <;> simp [eraseValue, pvLookup, hk, hk2, ih, hne]

theorem get_value_set_none_eq_erase {V : Type} (vals : PortVals V) (s p nid pid : String) :
    get_value (set_value vals s p none) nid pid =
      get_value (eraseValue vals s p) nid pid := by
  by_cases hk : ((nid, pid) : String × String) = (s, p)
  · rw [show nid = s from congrArg Prod.fst hk, show pid = p from congrArg Prod.snd hk]
    simp [get_value, pvLookup_set_self, pvLookup_erase_self]
  · simp [get_value, pvLookup_set_other _ _ _ _ _ hk, pvLookup_erase_other _ _ _ _ hk]

theorem get_inputs_congr {V : Type} (conns : List PortConnection) (v1 v2 : PortVals V)
    (h : ∀ nid pid, get_value v1 nid pid = get_value v2 nid pid) (node_id : String) :
    get_inputs_for_node conns v1 node_id = get_inputs_for_node conns v2 node_id := by
  unfold get_inputs_for_node
  suffices H : ∀ acc : List (String × V),
      conns.foldl
        (fun inputs conn =>
          if conn.target_node = node_id then
            match get_value v1 conn.source_node conn.source_port with
            | some v => dictSet inputs conn.target_port v
            | none => inputs
          else inputs) acc =
      conns.foldl
        (fun inputs conn =>
          if conn.target_node = node_id then
            match get_value v2 conn.source_node conn.source_port with
            | some v => dictSet inputs conn.target_port v
            | none => inputs
          else inputs) acc by
    exact H []
  induction conns with
  | nil => intro acc; rfl
  | cons c cs ih =>
      intro acc
      simp only [List.foldl_cons, h c.source_node c.source_port]
      exact ih _

/-- C10: a connection whose source port holds the value `None` contributes
nothing when gathering a node's inputs: a values map in which `(s, p)` is
set to `None` produces, for every node, exactly the inputs of the map in
which `(s, p)` was never produced at all; in particular a single
connection whose source value is `None` yields an empty input set. -/
theorem none_port_value_is_missing {V : Type} :
    (∀ (conns : List PortConnection) (vals : PortVals V) (s p nid : String),
        get_inputs_for_node conns (set_value vals s p none) nid =
          get_inputs_for_node conns (eraseValue vals s p) nid) ∧
    (∀ (conn : PortConnection) (vals : PortVals V),
        get_value vals conn.source_node conn.source_port = none →
        get_inputs_for_node [conn] vals conn.target_node = []) := by
  constructor
  · intro conns vals s p nid
    exact get_inputs_congr conns _ _ (fun a b => get_value_set_none_eq_erase vals s p a b) nid
  · intro conn vals h
    simp [get_inputs_for_node, h]

/-- Witness for C10 at a concrete connection with no produced value. -/
theorem none_port_value_is_missing_witness :
    get_inputs_for_node [⟨"a", "out", "b", "in"⟩] ([] : PortVals Nat) "b" = [] :=
  (none_port_value_is_missing (V := Nat)).2 ⟨"a", "out", "b", "in"⟩ [] rfl

/-! ### C9 — the resolver cache is keyed by node id alone -/

theorem cacheLookup_append_self (c : RCache) (nid : String) (r : ResolvedNode)
    (h : cacheLookup c nid = none) : cacheLookup (c ++ [(nid, r)]) nid = some r := by
  induction c with
  | nil => simp [cacheLookup]
  | cons head rest ih =>
      obtain ⟨k, v⟩ := head
      by_cases hk : k = nid <;> simp [cacheLookup, hk] at h ⊢ <;> exact ih h

/-- C9: one `SpecResolver` instance invokes the type resolver at most once
per node id: a second `resolve` call with the same `node_id` returns the
`ResolvedNode` created by the first call — even when the `node_type` or
`props` arguments differ — invoking no type resolver (flag `false`) and
leaving the cache unchanged. -/
theorem resolver_caches_per_id (reg : Registry) (c0 c1 : RCache) (nid t1 t2 : String)
    (p1 p2 : JObj) (r1 : ResolvedNode) (b1 : Bool)
    (h : SpecResolver.resolve reg c0 nid t1 p1 = .ok (c1, r1, b1)) :
    SpecResolver.resolve reg c1 nid t2 p2 = .ok (c1, r1, false) := by
  have hc : cacheLookup c1 nid = some r1 := by
    unfold SpecResolver.resolve at h
    cases hl : cacheLookup c0 nid with
    | some r =>
        simp only [hl] at h
        obtain ⟨h1, h2, -⟩ := by simpa using h
        rw [← h1, hl, h2]
    | none =>
        simp only [hl] at h
        cases hr : reg t1 with
        | none =>
            simp only [hr] at h
            obtain ⟨h1, h2, -⟩ := by simpa using h
            rw [← h1, ← h2]
            exact cacheLookup_append_self c0 nid _ hl
        | some f =>
            simp only [hr] at h
            cases hf : f p1 with
            | error e => simp [hf] at h
            | ok obj =>
                simp only [hf] at h
                obtain ⟨h1, h2, -⟩ := by simpa using h
                rw [← h1, ← h2]
                exact cacheLookup_append_self c0 nid _ hl
  unfold SpecResolver.resolve
  rw [hc]

/-- Witness for C9: resolving `"n"` twice (second time with a different
type and props) returns the first `ResolvedNode` from the cache. -/
theorem resolver_caches_per_id_witness :
    SpecResolver.resolve (fun _ => none)
      [("n", ⟨"n", "t", .nil, .bag .nil⟩)] "n" "u" (.cons "x" .jnull .nil) =
      .ok ([("n", ⟨"n", "t", .nil, .bag .nil⟩)], ⟨"n", "t", .nil, .bag .nil⟩, false) :=
  resolver_caches_per_id (fun _ => none) [] _ "n" "t" "u" .nil (.cons "x" .jnull .nil)
    _ _ rfl

/-! ### C7 — unregistered types fall back to a property bag -/

/-- C7: a declarative node whose `node_type` has no registered resolver
still resolves without failure: the runtime object is the property bag
carrying exactly the node's declared literal props, unchanged (and no
type resolver is invoked); moreover the engine's eager resolution pass
succeeds on any node list none of whose spec types is registered, so such
a node still participates in the run. -/
theorem unregistered_type_fallback (reg : Registry) :
    (∀ (cache : RCache) (nid t : String) (props : JObj),
        cacheLookup cache nid = none → reg t = none →
        SpecResolver.resolve reg cache nid t props =
          .ok (cache ++ [(nid, ⟨nid, t, props, .bag props⟩)],
               ⟨nid, t, props, .bag props⟩, false)) ∧
    (∀ (nodes : List GNode) (cache : RCache) (vals : PortVals RObj),
        (∀ nd ∈ nodes, reg (nd.node_type.getD "") = none) →
        ∃ out, resolveSpecNodes reg nodes cache vals = .ok out) := by
  constructor
  · intro cache nid t props hmiss hreg
    unfold SpecResolver.resolve
    rw [hmiss, hreg]
  · intro nodes
    induction nodes with
    | nil => intro cache vals _; exact ⟨(cache, vals), rfl⟩
    | cons nd rest ih =>
        intro cache vals h
        have hnd : reg (nd.node_type.getD "") = none := h nd (by simp)
        have hrest : ∀ x ∈ rest, reg (x.node_type.getD "") = none :=
          fun x hx => h x (by simp [hx])
        unfold resolveSpecNodes
        by_cases hkind : nd.kind = "spec" ∧ truthyOptStr nd.node_type = true
        · simp only [hkind, and_self, if_true]
          unfold SpecResolver.resolve
          cases hl : cacheLookup cache nd.id with
          | some r => exact ih _ _ hrest
          | none => rw [hnd]; exact ih _ _ hrest
        · rw [if_neg (by simpa using hkind)]
          exact ih _ _ hrest

/-- Witness for C7: a node of unregistered type `"custom.t"` resolves to
the bag of its single prop, and the engine resolution pass succeeds. -/
theorem unregistered_type_fallback_witness :
    SpecResolver.resolve (fun _ => none) [] "spec:a" "custom.t" (.cons "k" (.jint 3) .nil) =
      .ok ([("spec:a", ⟨"spec:a", "custom.t", .cons "k" (.jint 3) .nil,
              .bag (.cons "k" (.jint 3) .nil)⟩)],
           ⟨"spec:a", "custom.t", .cons "k" (.jint 3) .nil,
              .bag (.cons "k" (.jint 3) .nil)⟩, false) ∧
    ∃ out, resolveSpecNodes (fun _ => none)
        [{ id := "spec:a", name := "a", kind := "spec", node_type := some "custom.t",
           props := some (.cons "k" (.jint 3) .nil) }] [] [] = .ok out :=
  ⟨(unregistered_type_fallback (fun _ => none)).1 [] "spec:a" "custom.t" _ rfl rfl,
   (unregistered_type_fallback (fun _ => none)).2 _ [] []
     (by intro nd hnd; simp at hnd; subst hnd; rfl)⟩

/-! ### C1 — a non-literal props value does not skip the declaration -/

/-- A dict literal containing at least one non-JSON-ish value is rejected
as a whole by the element loop of `_jsonish_dict_literal`, whatever has
been accumulated so far. -/
theorem jsonishDictElems_none_of_bad : ∀ (kvs : EDict) (out : JObj),
    hasNonJsonishValue kvs = true → jsonishDictElems kvs out = none
  | .nil, _, h => by simp [hasNonJsonishValue] at h
  | .cons k v rest, out, h => by
      simp only [hasNonJsonishValue, Bool.or_eq_true, Option.isNone_iff_eq_none] at h
      unfold jsonishDictElems
      cases hs : stringExprValue k with
      | none => simp [hs]
      | some ks =>
          cases hv : jsonishValue v with
          | none => simp [hs, hv]
          | some jv =>
              have hrest : hasNonJsonishValue rest = true := by
                rcases h with h | h
                · rw [h] at hv; cases hv
                · exact h
              simp only [hs, hv]
              exact jsonishDictElems_none_of_bad rest _ hrest

/-- Spec-node collection is pointwise over top-level statements. -/
theorem mem_collectSpecNodes : ∀ (m : PyModule) (st : Stmt) (nd : GNode),
    st ∈ m.toList → nd ∈ specNodesOfStmt st → nd ∈ collectSpecNodes m
  | .nil, _, _, hmem, _ => by simp [StmtList.toList] at hmem
  | .cons s rest, st, nd, hmem, hnd => by
      simp only [StmtList.toList, List.mem_cons] at hmem
      unfold collectSpecNodes
      rcases hmem with h | h
      · subst h; exact List.mem_append_left _ hnd
      · exact List.mem_append_right _ (mem_collectSpecNodes rest st nd h hnd)

/-- C1 counterexample: in the module `spec("spec:x", type="t",
props={"a": b})` the props mapping holds the non-literal value `b` (a bare
name), yet extraction still captures a Node for the declaration — with
its `props` dropped to `None` — so the Graph does not lack the node, as
the claim states it should. -/
theorem spec_nonliteral_props_counterexample :
    jsonishValue (.ename "b") = none ∧
    (parse_graph (.cons (.sline [.sexpr (.ecall (.ename "spec")
        (.cons none (.estr "spec:x")
          (.cons (some "type") (.estr "t")
            (.cons (some "props")
              (.edict (.cons (.estr "a") (.ename "b") .nil)) .nil))))]) .nil)).nodes =
      [{ id := "spec:x", name := "spec:x", kind := "spec", label := none,
         node_type := some "t", props := none }] :=
  ⟨rfl, rfl⟩

/-- C1 (amended): a top-level `spec(...)` declaration with a
string-literal id and type whose props mapping includes at least one
non-literal value is not skipped: extraction captures it as a Node with
the props mapping dropped whole (`props = None`) — neither a partial
capture of the literal entries nor an absent node. -/
theorem spec_nonliteral_props_drops_props (m : PyModule) (kw0 : Option String)
    (nid ty : String) (kvs : EDict)
    (hmem : Stmt.sline [.sexpr (.ecall (.ename "spec")
        (.cons kw0 (.estr nid)
          (.cons (some "type") (.estr ty)
            (.cons (some "props") (.edict kvs) .nil))))] ∈ m.toList)
    (hbad : hasNonJsonishValue kvs = true) :
    ({ id := nid, name := nid, kind := "spec", label := none,
       node_type := some ty, props := none } : GNode) ∈ (parse_graph m).nodes := by
  have hprops : jsonishDictLiteral (.edict kvs) = none :=
    jsonishDictElems_none_of_bad kvs _ hbad
  refine List.mem_append_right _ (mem_collectSpecNodes m _ _ hmem ?_)
  simp [specNodesOfStmt, callFromSimpleStmt, callMatches, parseSpecCall,
    stringArgValue, stringExprValue, specCallFields, hprops]

/-- Witness for C1 (amended) at a concrete module whose props mapping
holds the non-literal value `os.path`. -/
theorem spec_nonliteral_props_drops_props_witness :
    ({ id := "spec:y", name := "spec:y", kind := "spec", label := none,
       node_type := some "T", props := none } : GNode) ∈
      (parse_graph (.cons (.sline [.sexpr (.ecall (.ename "spec")
        (.cons none (.estr "spec:y")
          (.cons (some "type") (.estr "T")
            (.cons (some "props")
              (.edict (.cons (.estr "k") (.eattr (.ename "os") "path") .nil))
              .nil))))]) .nil)).nodes :=
  spec_nonliteral_props_drops_props _ none "spec:y" "T"
    (.cons (.estr "k") (.eattr (.ename "os") "path") .nil)
    (by simp [StmtList.toList]) (by decide)

/-! ### C5 — the execution-order loop terminates and covers every node -/

theorem dedupFirst_aux_nodup {α : Type} [DecidableEq α] (l : List α) :
    ∀ acc : List α, acc.Nodup →
      (l.foldl (fun acc x => if x ∈ acc then acc else acc ++ [x]) acc).Nodup := by
  induction l with
  | nil => exact fun _ h => h
  | cons x xs ih =>
      intro acc h
      simp only [List.foldl_cons]
      by_cases hx : x ∈ acc
      · rw [if_pos hx]; exact ih acc h
      · rw [if_neg hx]
        refine ih _ ?_
        rw [List.nodup_append]
        refine ⟨h, List.nodup_singleton x, ?_⟩
        intro a ha hax
        rw [List.mem_singleton] at hax
        exact hx (hax ▸ ha)

theorem dedupFirst_nodup {α : Type} [DecidableEq α] (l : List α) : (dedupFirst l).Nodup :=
  dedupFirst_aux_nodup l [] List.nodup_nil

theorem mem_dedupFirst_aux {α : Type} [DecidableEq α] (l : List α) :
    ∀ (acc : List α) (x : α),
      (x ∈ l.foldl (fun acc x => if x ∈ acc then acc else acc ++ [x]) acc) ↔
        x ∈ acc ∨ x ∈ l := by
  induction l with
  | nil => simp
  | cons y ys ih =>
      intro acc x
      simp only [List.foldl_cons]
      by_cases hy : y ∈ acc
      · rw [if_pos hy, ih]
        simp only [List.mem_cons]
        constructor
        · rintro (h | h)
          · exact Or.inl h
          · exact Or.inr (Or.inr h)
        · rintro (h | h | h)
          · exact Or.inl h
          · exact Or.inl (h ▸ hy)
          · exact Or.inr h
      · rw [if_neg hy, ih]
        simp only [List.mem_append, List.mem_singleton, List.mem_cons]
        tauto

theorem mem_dedupFirst {α : Type} [DecidableEq α] (l : List α) (x : α) :
    x ∈ dedupFirst l ↔ x ∈ l := by
  rw [dedupFirst, mem_dedupFirst_aux]
  simp

theorem perm_select_append_filter {α : Type} [DecidableEq α] (l : List α) (P : α → Bool) :
    (l.filter P ++ l.filter (fun x => decide (x ∉ l.filter P))).Perm l := by
  have h2 : l.filter (fun x => decide (x ∉ l.filter P)) = l.filter (fun x => !(P x)) :=
    List.filter_congr (fun x hx => by simp [List.mem_filter, hx])
  rw [h2]
  exact List.filter_append_perm P l

/-- Each round of the ready-set loop removes a nonempty batch, so fuel
equal to the number of remaining nodes suffices and the rounds partition
the remaining set: the loop's output is a permutation of its input. -/
theorem buildOrderAux_perm (conns : List PortConnection) :
    ∀ (fuel : Nat) (rem : List String), rem.Nodup → rem.length ≤ fuel →
      (buildOrderAux conns fuel rem).Perm rem := by
  intro fuel
  induction fuel with
  | zero =>
      intro rem _ hlen
      have h0 : rem = [] := List.eq_nil_of_length_eq_zero (Nat.le_zero.mp hlen)
      subst h0
      simp [buildOrderAux]
  | succ fuel ih =>
      intro rem hnd hlen
      cases rem with
      | nil => simp [buildOrderAux]
      | cons r rs =>
          simp only [buildOrderAux]
          by_cases hready : readySet conns (r :: rs) = []
          · rw [if_pos hready]
            have hr : r ∉ rs := (List.nodup_cons.mp hnd).1
            have hfil : (r :: rs).filter (fun x => decide (x ∉ [r])) = rs := by
              rw [List.filter_cons]
              have hrr : (decide (r ∉ [r])) = false := by simp
              rw [hrr]
              simp only [Bool.false_eq_true, if_false]
              apply List.filter_eq_self.mpr
              intro a ha
              simp only [List.mem_singleton, decide_not, Bool.not_eq_true',
                decide_eq_false_iff_not]
              exact fun h => hr (h ▸ ha)
            rw [hfil]
            exact (ih rs (List.nodup_cons.mp hnd).2
              (Nat.le_of_succ_le_succ hlen)).cons r
          · rw [if_neg hready]
            unfold readySet at hready ⊢
            obtain ⟨y, hy⟩ := List.exists_mem_of_ne_nil _ hready
            have hymem : y ∈ (r :: rs) := List.mem_of_mem_filter hy
            have hlt : ((r :: rs).filter
                (fun x => decide (x ∉ (r :: rs).filter
                  (fun nid => ¬ (get_dependencies conns nid).any (· ∈ r :: rs))))).length <
                (r :: rs).length :=
              List.length_filter_lt_length_iff_exists.mpr
                ⟨y, hymem, by simp only [decide_eq_true_eq]; exact fun h => h hy⟩
            have hperm := ih _ (hnd.filter _)
              (Nat.le_of_lt_succ (Nat.lt_of_lt_of_le hlt hlen))
            exact (hperm.append_left _).trans (perm_select_append_filter _ _)

/-- C5: the execution-order computation terminates for every graph —
cyclic explicit-link dependencies included, the empty-ready-set deadlock
being broken by selecting one arbitrary remaining node — and the computed
order contains each executable node (callable-step nodes plus
`langchain.agent`-typed spec nodes, `workflow:` ids excluded) exactly
once: it is a no-duplicate permutation of the deduplicated executable id
list. -/
theorem execution_order_each_node_once (g : Graph) :
    (build_execution_order g).Perm (dedupFirst (executableIds g.nodes)) ∧
    (build_execution_order g).Nodup ∧
    ∀ nid, nid ∈ build_execution_order g ↔ nid ∈ executableIds g.nodes := by
  have hperm : (build_execution_order g).Perm (dedupFirst (executableIds g.nodes)) :=
    buildOrderAux_perm _ _ _ (dedupFirst_nodup _) le_rfl
  refine ⟨hperm, hperm.nodup_iff.mpr (dedupFirst_nodup _), fun nid => ?_⟩
  rw [hperm.mem_iff, mem_dedupFirst]

/-! ### C6 — execution is sequential and fail-fast -/


/-- C6: if the node at some position of the execution order raises, the
run aborts there: the trace is exactly the entries of the earlier
positions (a success entry for every executed node, the not-found error
entry for ids absent from the graph) followed by one error entry carrying
the failing node's id, the exception is re-raised with that id attached,
and no later-ordered node contributes anything. -/
theorem execute_fail_fast {V : Type} (exec1 : String → Except String V)
    (nodes : List GNode) (msg : String) (badId : String) :
    ∀ (pre post : List String) (res : Option V),
      (findNode nodes badId).isSome →
      exec1 badId = .error msg →
      (∀ nid ∈ pre, stepOk exec1 nodes nid) →
      executeNodes exec1 nodes (pre ++ badId :: post) res =
        (pre.map (stepEntry exec1 nodes) ++
          [{ node_id := badId, status := "error", error := some msg }],
         .error (badId, msg)) := by
  intro pre
  induction pre with
  | nil =>
      intro post res hfound herr _
      obtain ⟨nd, hnd⟩ := Option.isSome_iff_exists.mp hfound
      simp [executeNodes, hnd, herr]
  | cons nid pre ih =>
      intro post res hfound herr hpre
      have hok := hpre nid (by simp)
      have hrest : ∀ x ∈ pre, stepOk exec1 nodes x := fun x hx => hpre x (by simp [hx])
      rcases hok with hnone | ⟨v, hv⟩
      · simp only [List.cons_append, executeNodes, hnone, List.append_eq]
        rw [ih post res hfound herr hrest]
        simp [stepEntry, hnone]
      · cases hfind : findNode nodes nid with
        | none =>
            simp only [List.cons_append, executeNodes, hfind, List.append_eq]
            rw [ih post res hfound herr hrest]
            simp [stepEntry, hfind]
        | some nd =>
            simp only [List.cons_append, executeNodes, hfind, hv, List.append_eq]
            rw [ih post (some v) hfound herr hrest]
            simp [stepEntry, hfind]

/-- Witness for C6: `node:bad` fails after `node:good` succeeds;
`node:after` never runs. -/
theorem execute_fail_fast_witness :
    executeNodes (V := Nat)
      (fun nid => if nid = "node:bad" then .error "RuntimeError: boom" else .ok 1)
      [{ id := "node:good", name := "good", kind := "node" },
       { id := "node:bad", name := "bad", kind := "node" }]
      (["node:good"] ++ "node:bad" :: ["node:after"]) none =
      ([{ node_id := "node:good", status := "success", error := none },
        { node_id := "node:bad", status := "error", error := some "RuntimeError: boom" }],
       .error ("node:bad", "RuntimeError: boom")) :=
  execute_fail_fast _ _ "RuntimeError: boom" "node:bad" ["node:good"] ["node:after"] none
    rfl rfl
    (by intro nid hnid
        simp only [List.mem_singleton] at hnid
        subst hnid
        exact Or.inr ⟨1, rfl⟩)

/-! ### C4 — `add_link` placement inside the workflow body -/


theorem toList_ofList : ∀ L : List Stmt, (StmtList.ofList L).toList = L
  | [] => rfl
  | s :: rest => by simp [StmtList.ofList, StmtList.toList, toList_ofList rest]

theorem addLinkSL_toList (w a b c d : String) : ∀ sl : StmtList,
    (addLinkSL w a b c d sl).toList = sl.toList.map (addLinkS w a b c d)
  | .nil => rfl
  | .cons s rest => by
      simp [addLinkSL, StmtList.toList, addLinkSL_toList w a b c d rest]

theorem importEditSL_toList (req : List String) : ∀ sl : StmtList,
    (importEditSL req sl).toList = sl.toList.map (importEditS req)
  | .nil => rfl
  | .cons s rest => by
      simp [importEditSL, StmtList.toList, importEditSL_toList req rest]

theorem isReturnLine_importEditS (req : List String) (s : Stmt) :
    isReturnLine (importEditS req s) = isReturnLine s := by
  cases s with
  | sline body =>
      cases body with
      | nil => rfl
      | cons h t =>
          cases h with
          | simportFrom mod star names =>
              cases mod with
              | none => rfl
              | some md =>
                  cases star with
                  | true => rfl
                  | false =>
                      by_cases hmd : md = "holon" <;>
                        simp [importEditS, importEditSmall, isReturnLine, hmd]
          | sexpr e => rfl
          | sassign a b => rfl
          | sret e => rfl
          | simport md => rfl
          | spass => rfl
  | sfunc decs nm b => rfl
  | sif c t e => rfl

theorem endsWithReturnLine_map_importEdit (req : List String) (L : List Stmt) :
    endsWithReturnLine (L.map (importEditS req)) = endsWithReturnLine L := by
  unfold endsWithReturnLine
  rw [List.getLast?_map]
  cases hL : L.getLast? with
  | none => rfl
  | some s => simp [isReturnLine_importEditS]

theorem insert_link_no_ret (lk : Stmt) : ∀ sl : StmtList,
    endsWithReturnLine sl.toList = false →
    (insertBeforeTrailingReturn lk sl).toList = sl.toList ++ [lk]
  | .nil, _ => rfl
  | .cons s .nil, h => by
      have hs : isReturnLine s = false := by
        simpa [endsWithReturnLine, StmtList.toList] using h
      simp [insertBeforeTrailingReturn, hs, StmtList.toList]
  | .cons s (.cons s2 rest), h => by
      have h2 : endsWithReturnLine (StmtList.cons s2 rest).toList = false := by
        simpa [endsWithReturnLine, StmtList.toList, List.getLast?_cons_cons] using h
      simp [insertBeforeTrailingReturn, StmtList.toList,
        insert_link_no_ret lk (.cons s2 rest) h2]

theorem insert_link_ret (lk : Stmt) : ∀ sl : StmtList,
    endsWithReturnLine sl.toList = true →
    ∃ front lastS, sl.toList = front ++ [lastS] ∧ isReturnLine lastS = true ∧
      (insertBeforeTrailingReturn lk sl).toList = front ++ [lk] ++ [lastS]
  | .nil, h => by simp [endsWithReturnLine, StmtList.toList] at h
  | .cons s .nil, h => by
      have hs : isReturnLine s = true := by
        simpa [endsWithReturnLine, StmtList.toList] using h
      exact ⟨[], s, by simp [StmtList.toList],  hs,
        by simp [insertBeforeTrailingReturn, hs, StmtList.toList]⟩
  | .cons s (.cons s2 rest), h => by
      have h2 : endsWithReturnLine (StmtList.cons s2 rest).toList = true := by
        simpa [endsWithReturnLine, StmtList.toList, List.getLast?_cons_cons] using h
      obtain ⟨front, lastS, he, hr, hi⟩ := insert_link_ret lk (.cons s2 rest) h2
      exact ⟨s :: front, lastS, by simpa [StmtList.toList] using congrArg (List.cons s) he, hr,
        by simpa [insertBeforeTrailingReturn, StmtList.toList] using congrArg (List.cons s) hi⟩

theorem mem_ensureHolonImports (req : List String) (m : PyModule) (st : Stmt)
    (h : st ∈ (importEditSL req m).toList) : st ∈ (ensureHolonImports req m).toList := by
  unfold ensureHolonImports
  by_cases hf : holonImportFoundSL m = true
  · simp only [hf, if_true]
    exact h
  · simp only [hf, Bool.false_eq_true, if_false]
    rw [toList_ofList]
    unfold insertAt
    rw [← List.take_append_drop (importInsertAt (importEditSL req m).toList)
      (importEditSL req m).toList] at h
    rcases List.mem_append.mp h with h1 | h1
    · exact List.mem_append_left _ (List.mem_append_left _ h1)
    · exact List.mem_append_right _ h1

/-- C4: for every source text containing a top-level workflow-annotated
declaration with the given name, `add_link` inserts exactly one new
`link(...)` wiring statement into that workflow's body — immediately
before the body's trailing return statement when the last statement is a
return, otherwise appended as the body's last statement — and every other
statement of the body survives in its original position: the rest of the
new body is exactly the elementwise image of the old body under the
pipeline's per-statement processing (nested-workflow link insertion and
holon-import editing), with nothing removed or reordered. -/
theorem add_link_places_link (m : PyModule) (wfName sid sp tid tp : String)
    (decs : List Expr) (body : StmtList)
    (hmem : Stmt.sfunc decs wfName body ∈ m.toList)
    (hwf : isDecoratedAs decs "workflow" = true) :
    ∃ newBody : StmtList,
      Stmt.sfunc decs wfName newBody ∈ (add_link m wfName sid sp tid tp).toList ∧
      procBody wfName sid sp tid tp body =
        body.toList.map (procStmt wfName sid sp tid tp) ∧
      (endsWithReturnLine (procBody wfName sid sp tid tp body) = false →
        newBody.toList =
          procBody wfName sid sp tid tp body ++ [mkLinkStmt sid sp tid tp]) ∧
      (endsWithReturnLine (procBody wfName sid sp tid tp body) = true →
        ∃ front lastS,
          procBody wfName sid sp tid tp body = front ++ [lastS] ∧
          isReturnLine lastS = true ∧
          newBody.toList = front ++ [mkLinkStmt sid sp tid tp] ++ [lastS]) := by
  refine ⟨importEditSL holonRequiredNames
    (insertBeforeTrailingReturn (mkLinkStmt sid sp tid tp)
      (addLinkSL wfName sid sp tid tp body)), ?_, ?_, ?_, ?_⟩
  · -- membership in the output module
    have h1 : addLinkS wfName sid sp tid tp (Stmt.sfunc decs wfName body) =
        Stmt.sfunc decs wfName (insertBeforeTrailingReturn (mkLinkStmt sid sp tid tp)
          (addLinkSL wfName sid sp tid tp body)) := by
      simp [addLinkS, hwf]
    have h2 : addLinkS wfName sid sp tid tp (Stmt.sfunc decs wfName body) ∈
        (addLinkSL wfName sid sp tid tp m).toList := by
      rw [addLinkSL_toList]
      exact List.mem_map_of_mem _ hmem
    have h3 : importEditS holonRequiredNames
        (addLinkS wfName sid sp tid tp (Stmt.sfunc decs wfName body)) ∈
        (importEditSL holonRequiredNames (addLinkSL wfName sid sp tid tp m)).toList := by
      rw [importEditSL_toList]
      exact List.mem_map_of_mem _ h2
    have h4 : importEditS holonRequiredNames
        (addLinkS wfName sid sp tid tp (Stmt.sfunc decs wfName body)) =
        Stmt.sfunc decs wfName (importEditSL holonRequiredNames
          (insertBeforeTrailingReturn (mkLinkStmt sid sp tid tp)
            (addLinkSL wfName sid sp tid tp body))) := by
      rw [h1]
      rfl
    rw [h4] at h3
    exact mem_ensureHolonImports _ _ _ h3
  · -- the processed body is the elementwise image of the old body
    unfold procBody
    rw [importEditSL_toList, addLinkSL_toList, List.map_map]
    rfl
  · -- placement: appended at the end when the last statement is not a return
    intro hnoRet
    unfold procBody at hnoRet ⊢
    simp only [importEditSL_toList] at hnoRet ⊢
    rw [endsWithReturnLine_map_importEdit] at hnoRet
    rw [insert_link_no_ret _ _ hnoRet, List.map_append]
    rfl
  · -- placement: immediately before a trailing return line
    intro hRet
    unfold procBody at hRet ⊢
    simp only [importEditSL_toList] at hRet ⊢
    rw [endsWithReturnLine_map_importEdit] at hRet
    obtain ⟨front, lastS, he, hr, hi⟩ :=
      insert_link_ret (mkLinkStmt sid sp tid tp) _ hRet
    refine ⟨front.map (importEditS holonRequiredNames),
      importEditS holonRequiredNames lastS, ?_, ?_, ?_⟩
    · rw [he, List.map_append, List.map_singleton]
    · rw [isReturnLine_importEditS]
      exact hr
    · rw [hi]
      simp only [List.map_append, List.map_singleton]
      rfl

/-- Witness for C4: adding a link to a one-workflow module whose body is
a single `return`. -/
theorem add_link_places_link_witness :
    ∃ newBody : StmtList,
      Stmt.sfunc [.ename "workflow"] "main" newBody ∈
        (add_link (.cons (.sfunc [.ename "workflow"] "main"
            (.cons (.sline [.sret none]) .nil)) .nil) "main" "a" "o" "b" "i").toList ∧
      procBody "main" "a" "o" "b" "i" (.cons (.sline [.sret none]) .nil) =
        (StmtList.cons (Stmt.sline [.sret none]) .nil).toList.map
          (procStmt "main" "a" "o" "b" "i") ∧
      (endsWithReturnLine
          (procBody "main" "a" "o" "b" "i" (.cons (.sline [.sret none]) .nil)) = false →
        newBody.toList =
          procBody "main" "a" "o" "b" "i" (.cons (.sline [.sret none]) .nil) ++
            [mkLinkStmt "a" "o" "b" "i"]) ∧
      (endsWithReturnLine
          (procBody "main" "a" "o" "b" "i" (.cons (.sline [.sret none]) .nil)) = true →
        ∃ front lastS,
          procBody "main" "a" "o" "b" "i" (.cons (.sline [.sret none]) .nil) =
            front ++ [lastS] ∧
          isReturnLine lastS = true ∧
          newBody.toList = front ++ [mkLinkStmt "a" "o" "b" "i"] ++ [lastS]) :=
  add_link_places_link _ "main" "a" "o" "b" "i" [.ename "workflow"] _
    (by simp [StmtList.toList]) rfl

/-! ### C2 and C3 — rename scope and not-found behavior -/


mutual

theorem renameE_false_id (o n : String) : ∀ e : Expr, renameE o n false e = e
  | .ename _ => rfl
  | .estr _ => rfl
  | .eint _ => rfl
  | .efloat _ => rfl
  | .eattr b a => by simp [renameE, renameE_false_id o n b]
  | .ecall f args => by
      simp [renameE, renameE_false_id o n f, renameEA_false_id o n args]
  | .elist es => by simp [renameE, renameEL_false_id o n es]
  | .edict es => by simp [renameE, renameED_false_id o n es]

theorem renameEA_false_id (o n : String) : ∀ a : EArgs, renameEA o n false a = a
  | .nil => rfl
  | .cons kw v rest => by
      simp [renameEA, renameE_false_id o n v, renameEA_false_id o n rest]

theorem renameEL_false_id (o n : String) : ∀ l : EList, renameEL o n false l = l
  | .nil => rfl
  | .cons e rest => by
      simp [renameEL, renameE_false_id o n e, renameEL_false_id o n rest]

theorem renameED_false_id (o n : String) : ∀ d : EDict, renameED o n false d = d
  | .nil => rfl
  | .cons k v rest => by
      simp [renameED, renameE_false_id o n k, renameE_false_id o n v,
        renameED_false_id o n rest]

end

theorem renameE_ne_ename (o n : String) (f : Expr) (hf : f ≠ .ename o) (wf : Bool) :
    renameE o n wf f ≠ .ename o := by
  cases f with
  | ename s => simpa [renameE] using hf
  | estr s => simp [renameE]
  | eint k => simp [renameE]
  | efloat s => simp [renameE]
  | eattr b a => simp [renameE]
  | ecall g as => unfold renameE; split <;> simp
  | elist es => simp [renameE]
  | edict es => simp [renameE]

mutual

theorem renameE_true_clears (o n : String) (hne : o ≠ n) :
    ∀ e : Expr, countCallsToE o (renameE o n true e) = 0
  | .ename _ => rfl
  | .estr _ => rfl
  | .eint _ => rfl
  | .efloat _ => rfl
  | .eattr b a => by
      simp [renameE, countCallsToE, renameE_true_clears o n hne b]
  | .ecall f args => by
      by_cases hf : f = Expr.ename o
      · subst hf
        have hno : Expr.ename n ≠ Expr.ename o := by
          simpa using fun h => hne h.symm
        simp [renameE, countCallsToE, hno, renameEA_true_clears o n hne args]
      · have h1 := renameE_ne_ename o n f hf true
        simp [renameE, hf, countCallsToE, h1, renameE_true_clears o n hne f,
          renameEA_true_clears o n hne args]
  | .elist es => by simp [renameE, countCallsToE, renameEL_true_clears o n hne es]
  | .edict es => by simp [renameE, countCallsToE, renameED_true_clears o n hne es]

theorem renameEA_true_clears (o n : String) (hne : o ≠ n) :
    ∀ a : EArgs, countCallsToEA o (renameEA o n true a) = 0
  | .nil => rfl
  | .cons kw v rest => by
      simp [renameEA, countCallsToEA, renameE_true_clears o n hne v,
        renameEA_true_clears o n hne rest]

theorem renameEL_true_clears (o n : String) (hne : o ≠ n) :
    ∀ l : EList, countCallsToEL o (renameEL o n true l) = 0
  | .nil => rfl
  | .cons e rest => by
      simp [renameEL, countCallsToEL, renameE_true_clears o n hne e,
        renameEL_true_clears o n hne rest]

theorem renameED_true_clears (o n : String) (hne : o ≠ n) :
    ∀ d : EDict, countCallsToED o (renameED o n true d) = 0
  | .nil => rfl
  | .cons k v rest => by
      simp [renameED, countCallsToED, renameE_true_clears o n hne k,
        renameE_true_clears o n hne v, renameED_true_clears o n hne rest]

end

mutual

theorem renameE_zero_id (o n : String) (wf : Bool) :
    ∀ e : Expr, countCallsToE o e = 0 → renameE o n wf e = e
  | .ename _, _ => rfl
  | .estr _, _ => rfl
  | .eint _, _ => rfl
  | .efloat _, _ => rfl
  | .eattr b a, h => by
      simp only [countCallsToE] at h
      simp [renameE, renameE_zero_id o n wf b h]
  | .ecall f args, h => by
      simp only [countCallsToE, Nat.add_eq_zero] at h
      obtain ⟨⟨hif, hf⟩, hargs⟩ := h
      have hfo : f ≠ Expr.ename o := by
        intro hc
        simp [hc] at hif
      simp [renameE, hfo, renameE_zero_id o n wf f hf,
        renameEA_zero_id o n wf args hargs]
  | .elist es, h => by
      simp only [countCallsToE] at h
      simp [renameE, renameEL_zero_id o n wf es h]
  | .edict es, h => by
      simp only [countCallsToE] at h
      simp [renameE, renameED_zero_id o n wf es h]

theorem renameEA_zero_id (o n : String) (wf : Bool) :
    ∀ a : EArgs, countCallsToEA o a = 0 → renameEA o n wf a = a
  | .nil, _ => rfl
  | .cons kw v rest, h => by
      simp only [countCallsToEA, Nat.add_eq_zero] at h
      simp [renameEA, renameE_zero_id o n wf v h.1, renameEA_zero_id o n wf rest h.2]

theorem renameEL_zero_id (o n : String) (wf : Bool) :
    ∀ l : EList, countCallsToEL o l = 0 → renameEL o n wf l = l
  | .nil, _ => rfl
  | .cons e rest, h => by
      simp only [countCallsToEL, Nat.add_eq_zero] at h
      simp [renameEL, renameE_zero_id o n wf e h.1, renameEL_zero_id o n wf rest h.2]

theorem renameED_zero_id (o n : String) (wf : Bool) :
    ∀ d : EDict, countCallsToED o d = 0 → renameED o n wf d = d
  | .nil, _ => rfl
  | .cons k v rest, h => by
      simp only [countCallsToED, Nat.add_eq_zero] at h
      obtain ⟨⟨hk, hv⟩, hrest⟩ := by
        simpa [Nat.add_eq_zero] using h
      simp [renameED, renameE_zero_id o n wf k hk, renameE_zero_id o n wf v hv,
        renameED_zero_id o n wf rest hrest]

end

theorem renameSmall_zero_id (o n : String) (wf : Bool) (s : SmallStmt)
    (h : countCallsToSmall o s = 0) : renameSmall o n wf s = s := by
  cases s with
  | sexpr e => simp [renameSmall,
      renameE_zero_id o n wf e (by simpa [countCallsToSmall] using h)]
  | sassign t v => simp [renameSmall,
      renameE_zero_id o n wf v (by simpa [countCallsToSmall] using h)]
  | sret e =>
      cases e with
      | none => rfl
      | some e2 => simp [renameSmall,
          renameE_zero_id o n wf e2 (by simpa [countCallsToSmall] using h)]
  | simportFrom a b c => rfl
  | simport a => rfl
  | spass => rfl

theorem renameSmall_list_zero_id (o n : String) (wf : Bool) : ∀ body : List SmallStmt,
    (body.map (countCallsToSmall o)).sum = 0 → body.map (renameSmall o n wf) = body
  | [], _ => rfl
  | s :: rest, h => by
      simp only [List.map_cons, List.sum_cons, Nat.add_eq_zero] at h
      simp only [List.map_cons]
      rw [renameSmall_zero_id o n wf s h.1, renameSmall_list_zero_id o n wf rest h.2]

theorem renameE_list_zero_id (o n : String) (wf : Bool) : ∀ decs : List Expr,
    (decs.map (countCallsToE o)).sum = 0 → decs.map (renameE o n wf) = decs
  | [], _ => rfl
  | e :: rest, h => by
      simp only [List.map_cons, List.sum_cons, Nat.add_eq_zero] at h
      simp only [List.map_cons]
      rw [renameE_zero_id o n wf e h.1, renameE_list_zero_id o n wf rest h.2]

mutual

theorem renameS_zero_id (o n : String) : ∀ (st : Stmt) (wf : Bool),
    countCallsToS o st = 0 → funcDeclExistsS o st = false → renameS o n wf st = st
  | .sline body, wf, hc, _ => by
      simp only [countCallsToS] at hc
      simp [renameS, renameSmall_list_zero_id o n wf body hc]
  | .sfunc decs nm body, wf, hc, hd => by
      simp only [countCallsToS, Nat.add_eq_zero] at hc
      simp only [funcDeclExistsS, Bool.or_eq_false_iff, decide_eq_false_iff_not] at hd
      have hnm : ¬(isDecoratedAs decs "node" = true ∧ nm = o) := fun hcon => hd.1 hcon.2
      simp [renameS, hnm, renameE_list_zero_id o n _ decs hc.1,
        renameSL_zero_id o n body _ hc.2 hd.2]
  | .sif c t e, wf, hc, hd => by
      simp only [countCallsToS, Nat.add_eq_zero] at hc
      simp only [funcDeclExistsS, Bool.or_eq_false_iff] at hd
      simp [renameS, renameE_zero_id o n wf c hc.1.1,
        renameSL_zero_id o n t wf hc.1.2 hd.1, renameSL_zero_id o n e wf hc.2 hd.2]

theorem renameSL_zero_id (o n : String) : ∀ (sl : StmtList) (wf : Bool),
    countCallsToSL o sl = 0 → funcDeclExistsSL o sl = false → renameSL o n wf sl = sl
  | .nil, _, _, _ => rfl
  | .cons s rest, wf, hc, hd => by
      simp only [countCallsToSL, Nat.add_eq_zero] at hc
      simp only [funcDeclExistsSL, Bool.or_eq_false_iff] at hd
      simp [renameSL, renameS_zero_id o n s wf hc.1 hd.1,
        renameSL_zero_id o n rest wf hc.2 hd.2]

end

theorem specCallPatch_none (pa : PatchArgs) (f : Expr) (args : EArgs)
    (h : (match args with
          | .cons _ v0 _ => decide (stringExprValue v0 = some pa.node_id)
          | .nil => false) = false) :
    specCallPatch pa f args = none := by
  cases args with
  | nil => rfl
  | cons kw v0 rest =>
      simp only [decide_eq_false_iff_not] at h
      cases hs : stringExprValue v0 with
      | none => simp [specCallPatch, hs]
      | some nid =>
          simp only [specCallPatch, hs]
          rw [if_neg (fun hc : nid = pa.node_id => h (hc ▸ hs))]

theorem patchSpecLine_none (pa : PatchArgs) (body : List SmallStmt)
    (h : isSpecDeclLine pa.node_id body = false) : patchSpecLine pa body = none := by
  match body with
  | [] => rfl
  | [SmallStmt.sexpr e] =>
      cases e with
      | ecall f args =>
          unfold isSpecDeclLine callFromSimpleStmt at h
          unfold patchSpecLine
          by_cases hm : callMatches f "spec" = true
          · simp only [hm, Bool.true_and] at h
            simp only [hm, if_true]
            rw [specCallPatch_none pa f args h]
            rfl
          · simp [hm]
      | ename s => rfl
      | estr s => rfl
      | eint k => rfl
      | efloat s => rfl
      | eattr b a => rfl
      | elist es => rfl
      | edict es => rfl
  | [SmallStmt.sassign t e] =>
      cases e with
      | ecall f args =>
          unfold isSpecDeclLine callFromSimpleStmt at h
          unfold patchSpecLine
          by_cases hm : callMatches f "spec" = true
          · simp only [hm, Bool.true_and] at h
            simp only [hm, if_true]
            rw [specCallPatch_none pa f args h]
            rfl
          · simp [hm]
      | ename s => rfl
      | estr s => rfl
      | eint k => rfl
      | efloat s => rfl
      | eattr b a => rfl
      | elist es => rfl
      | edict es => rfl
  | [SmallStmt.sret e] => rfl
  | [SmallStmt.simportFrom a b c] => rfl
  | [SmallStmt.simport a] => rfl
  | [SmallStmt.spass] => rfl
  | h1 :: h2 :: t =>
      cases h1 with
      | sexpr e => cases e <;> rfl
      | sassign a e => cases e <;> rfl
      | sret e => rfl
      | simportFrom a b c => rfl
      | simport a => rfl
      | spass => rfl

mutual

theorem patchSpecS_skip (pa : PatchArgs) : ∀ st : Stmt,
    specDeclExistsS pa.node_id st = false → patchSpecS pa st false = .ok (st, false)
  | .sline body, h => by
      have hl := patchSpecLine_none pa body (by simpa [specDeclExistsS] using h)
      simp [patchSpecS, hl]
  | .sfunc decs nm b, h => by
      have hb := patchSpecSL_skip pa b (by simpa [specDeclExistsS] using h)
      simp [patchSpecS, hb]
  | .sif c t e, h => by
      have h2 : specDeclExistsSL pa.node_id t = false ∧
          specDeclExistsSL pa.node_id e = false := by
        simpa [specDeclExistsS, Bool.or_eq_false_iff] using h
      have ht := patchSpecSL_skip pa t h2.1
      have he := patchSpecSL_skip pa e h2.2
      simp [patchSpecS, ht, he]

theorem patchSpecSL_skip (pa : PatchArgs) : ∀ sl : StmtList,
    specDeclExistsSL pa.node_id sl = false → patchSpecSL pa sl false = .ok (sl, false)
  | .nil, _ => rfl
  | .cons s rest, h => by
      have h2 : specDeclExistsS pa.node_id s = false ∧
          specDeclExistsSL pa.node_id rest = false := by
        simpa [specDeclExistsSL, Bool.or_eq_false_iff] using h
      have hs := patchSpecS_skip pa s h2.1
      have hr := patchSpecSL_skip pa rest h2.2
      simp [patchSpecSL, hs, hr]

end

/-- C3 (amended): of the Patcher operations targeting a declaration,
`patch_spec_node` and `delete_node` fail with a not-found error when no
matching declaration exists (the pure embedding leaves the input
untouched), but `rename_node` performs no such check: with distinct
non-empty names it always succeeds, and when `old_name` occurs nowhere
(no call site, no function declaration) it returns the input text
byte-identical rather than reporting a caller error. -/
theorem patcher_not_found (m : PyModule) :
    (∀ old_name new_name : String, old_name ≠ new_name → old_name ≠ "" → new_name ≠ "" →
        rename_node m old_name new_name = .ok (renameSL old_name new_name false m)) ∧
    (∀ old_name new_name : String, old_name ≠ new_name → old_name ≠ "" → new_name ≠ "" →
        countCallsToSL old_name m = 0 → funcDeclExistsSL old_name m = false →
        rename_node m old_name new_name = .ok m) ∧
    (∀ pa : PatchArgs, specDeclExistsSL pa.node_id m = false →
        patch_spec_node m pa = .error ("spec node not found: " ++ pa.node_id)) ∧
    (∀ nid : String, m.toList.any (fun st => declIdOf st = some nid) = false →
        delete_node m nid = .error ("node not found: " ++ nid)) := by
  refine ⟨?_, ?_, ?_, ?_⟩
  · intro o n hne ho hn
    unfold rename_node
    rw [if_neg hne, if_neg (by simp [ho, hn])]
  · intro o n hne ho hn hc hd
    unfold rename_node
    rw [if_neg hne, if_neg (by simp [ho, hn]), renameSL_zero_id o n m false hc hd]
  · intro pa hnone
    unfold patch_spec_node
    rw [patchSpecSL_skip pa m hnone]
    rfl
  · intro nid hany
    unfold delete_node
    rw [hany]
    rfl

/-- C3 counterexample: on a module with no declaration (or call) of
`f` at all, `rename_node` succeeds and returns the input unchanged instead
of failing with a not-found error, contradicting the claim that every
name-targeting operation — rename in particular — is reported as a
caller error. -/
theorem rename_missing_target_counterexample :
    funcDeclExistsSL "f" (.cons (.sline [.spass]) .nil) = false ∧
    rename_node (.cons (.sline [.spass]) .nil) "f" "g" =
      .ok (.cons (.sline [.spass]) .nil) :=
  ⟨rfl, rfl⟩

/-- Witness for C3 (amended) on the one-line module `pass`. -/
theorem patcher_not_found_witness :
    rename_node (.cons (.sline [.spass]) .nil) "f" "g" =
      .ok (renameSL "f" "g" false (.cons (.sline [.spass]) .nil)) ∧
    rename_node (.cons (.sline [.spass]) .nil) "f" "g" =
      .ok (.cons (.sline [.spass]) .nil) ∧
    patch_spec_node (.cons (.sline [.spass]) .nil) { node_id := "x" } =
      .error ("spec node not found: " ++ "x") ∧
    delete_node (.cons (.sline [.spass]) .nil) "x" =
      .error ("node not found: " ++ "x") :=
  ⟨(patcher_not_found _).1 "f" "g" (by decide) (by decide) (by decide),
   (patcher_not_found _).2.1 "f" "g" (by decide) (by decide) (by decide) rfl rfl,
   (patcher_not_found _).2.2.1 { node_id := "x" } rfl,
   (patcher_not_found _).2.2.2 "x" rfl⟩

/-- C2 (amended): `rename_node` renames every `@node`-decorated
declaration of `old_name`, and rewrites exactly those direct, unqualified
call sites whose *nearest enclosing* function declaration is
workflow-annotated: expressions whose context is not workflow-scoped are
returned byte-identical, every direct call to `old_name` in
workflow-scoped context is rewritten away, and entering any function
declaration resets the context to that function's own decoration. -/
theorem rename_nearest_enclosing_function_scope (o n : String) (hne : o ≠ n) :
    (∀ e : Expr, renameE o n false e = e) ∧
    (∀ e : Expr, countCallsToE o (renameE o n true e) = 0) ∧
    (∀ (w : Bool) (decs : List Expr) (nm : String) (body : StmtList),
        renameS o n w (.sfunc decs nm body) =
          .sfunc (decs.map (renameE o n (isDecoratedAs decs "workflow")))
            (if isDecoratedAs decs "node" ∧ nm = o then n else nm)
            (renameSL o n (isDecoratedAs decs "workflow") body)) :=
  ⟨renameE_false_id o n, renameE_true_clears o n hne, fun _ _ _ _ => rfl⟩

/-- C2 counterexample: in `@workflow def w: def inner: f()` the call to
`f` occurs lexically inside the workflow-annotated declaration `w`, yet
`rename_node` leaves the whole module unchanged — its workflow test looks
only at the nearest enclosing function (`inner`, undecorated), so the
claim's "rewrites exactly those call sites lexically inside a
workflow-annotated declaration" fails. -/
theorem rename_nested_def_counterexample :
    wfCallSitesSL "f" (.cons (.sfunc [.ename "workflow"] "w"
        (.cons (.sfunc [] "inner"
          (.cons (.sline [.sexpr (.ecall (.ename "f") .nil)]) .nil)) .nil)) .nil) = 1 ∧
    rename_node (.cons (.sfunc [.ename "workflow"] "w"
        (.cons (.sfunc [] "inner"
          (.cons (.sline [.sexpr (.ecall (.ename "f") .nil)]) .nil)) .nil)) .nil) "f" "g" =
      .ok (.cons (.sfunc [.ename "workflow"] "w"
        (.cons (.sfunc [] "inner"
          (.cons (.sline [.sexpr (.ecall (.ename "f") .nil)]) .nil)) .nil)) .nil) :=
  ⟨rfl, rfl⟩

/-- Witness for C2 (amended): a direct call `f()` is untouched in
non-workflow context and rewritten (no call to `f` remains) in workflow
context. -/
theorem rename_nearest_enclosing_function_scope_witness :
    renameE "f" "g" false (.ecall (.ename "f") .nil) = .ecall (.ename "f") .nil ∧
    countCallsToE "f" (renameE "f" "g" true (.ecall (.ename "f") .nil)) = 0 :=
  ⟨(rename_nearest_enclosing_function_scope "f" "g" (by decide)).1 _,
   (rename_nearest_enclosing_function_scope "f" "g" (by decide)).2.1 _⟩
